import Mathlib

/-
Verification of the NTRU command-line encryption program.

The repository's own source (src/main.rs) is CLI glue: it reads key files,
trims and base64-decodes them, validates buffer sizes, and calls into an
NTRU engine (key generation, public-key derivation, encryption, decryption)
whose code is not part of the repository.  Following the specification, the
engine is modelled here from the spec's component contracts (truncated
polynomial ring arithmetic, trinary sampling, padding/validation rules),
and the glue layer is embedded directly from src/main.rs.
-/

namespace NTRU

/-! ### Fixed-width positional codecs

Modelled from the spec: the Codec component fixed-length binary
encode/decode of polynomials to/from byte buffers (spec section 6).  A
value is split into a fixed number of base-`B` digits, least significant
first; `ofDigits` is the inverse fold. -/

/-- Modelled from the spec: fixed-width little-endian base-`B` digit
expansion used by the Codec component. -/
def toDigits (B : ℕ) : ℕ → ℕ → List ℕ
  | 0, _ => []
  | len + 1, v => v % B :: toDigits B len (v / B)

/-- Modelled from the spec: the Codec's digits-to-value fold, inverse of
`toDigits`. -/
def ofDigits (B : ℕ) (ds : List ℕ) : ℕ :=
  ds.foldr (fun d acc => d + B * acc) 0

theorem length_toDigits (B : ℕ) : ∀ (len v : ℕ), (toDigits B len v).length = len
  | 0, _ => rfl
  | len + 1, v => by simp [toDigits, length_toDigits B len]

theorem mem_toDigits_lt (B : ℕ) (hB : 0 < B) :
    ∀ (len v : ℕ), ∀ d ∈ toDigits B len v, d < B
  | len + 1, v, d, hd => by
    rcases List.mem_cons.mp hd with h | h
    · exact h ▸ Nat.mod_lt _ hB
    · exact mem_toDigits_lt B hB len (v / B) d h

theorem ofDigits_nil (B : ℕ) : ofDigits B [] = 0 := rfl

theorem ofDigits_cons (B d : ℕ) (ds : List ℕ) :
    ofDigits B (d :: ds) = d + B * ofDigits B ds := rfl

theorem ofDigits_toDigits (B : ℕ) (hB : 0 < B) :
    ∀ (len v : ℕ), v < B ^ len → ofDigits B (toDigits B len v) = v
  | 0, v, hv => by
    simpa [toDigits, ofDigits] using (Nat.lt_one_iff.mp (by simpa using hv)).symm
  | len + 1, v, hv => by
    have hdiv : v / B < B ^ len := by
      rw [Nat.div_lt_iff_lt_mul hB]
      calc v < B ^ (len + 1) := hv
        _ = B ^ len * B := by ring
    rw [toDigits, ofDigits_cons, ofDigits_toDigits B hB len (v / B) hdiv,
      Nat.mod_add_div]

theorem ofDigits_lt (B : ℕ) (hB : 0 < B) :
    ∀ (ds : List ℕ), (∀ d ∈ ds, d < B) → ofDigits B ds < B ^ ds.length
  | [], _ => by simp [ofDigits]
  | d :: ds, h => by
    have hd : d < B := h d (List.mem_cons_self d ds)
    have hds : ofDigits B ds < B ^ ds.length :=
      ofDigits_lt B hB ds (fun x hx => h x (List.mem_cons_of_mem d hx))
    have : d + B * ofDigits B ds < B * (ofDigits B ds + 1) := by
      have := Nat.mul_le_mul_left B (Nat.succ_le_of_lt hds)
      nlinarith
    calc ofDigits B (d :: ds) = d + B * ofDigits B ds := rfl
      _ < B * (ofDigits B ds + 1) := this
      _ ≤ B * B ^ ds.length := Nat.mul_le_mul_left B (Nat.succ_le_of_lt hds)
      _ = B ^ (d :: ds).length := by rw [List.length_cons]; ring

theorem toDigits_ofDigits (B : ℕ) (hB : 0 < B) :
    ∀ (ds : List ℕ), (∀ d ∈ ds, d < B) →
      toDigits B ds.length (ofDigits B ds) = ds
  | [], _ => rfl
  | d :: ds, h => by
    have hd : d < B := h d (List.mem_cons_self d ds)
    have hmod : (d + B * ofDigits B ds) % B = d := by
      rw [Nat.add_mul_mod_self_left, Nat.mod_eq_of_lt hd]
    have hdiv : (d + B * ofDigits B ds) / B = ofDigits B ds := by
      rw [Nat.add_mul_div_left _ _ hB, Nat.div_eq_of_lt hd, Nat.zero_add]
    rw [List.length_cons, ofDigits_cons, toDigits, hmod, hdiv,
      toDigits_ofDigits B hB ds (fun x hx => h x (List.mem_cons_of_mem d hx))]

/-! ### Trits

Modelled from the spec: the deterministic bytes-to-trits mapping used by
the Encryptor (spec section 4.5) stores base-3 digits as polynomial
coefficients in the set of trinary values, mapping digit 2 to -1. -/

/-- Modelled from the spec: base-3 digit to trinary coefficient. -/
def tritToInt (d : ℕ) : ℤ :=
  if d = 2 then -1 else (d : ℤ)

/-- Modelled from the spec: trinary coefficient back to base-3 digit. -/
def intToTrit (t : ℤ) : ℕ :=
  if t = -1 then 2 else t.toNat

theorem intToTrit_tritToInt {d : ℕ} (hd : d < 3) : intToTrit (tritToInt d) = d := by
  interval_cases d <;> rfl

theorem abs_tritToInt {d : ℕ} (hd : d < 3) : |tritToInt d| ≤ 1 := by
  interval_cases d <;> decide

theorem tritToInt_intToTrit {t : ℤ} (ht : |t| ≤ 1) : tritToInt (intToTrit t) = t := by
  obtain ⟨h1, h2⟩ := abs_le.mp ht
  have : t = -1 ∨ t = 0 ∨ t = 1 := by omega
  rcases this with h | h | h <;> simp [h, intToTrit, tritToInt]

theorem intToTrit_lt {t : ℤ} (ht : |t| ≤ 1) : intToTrit t < 3 := by
  obtain ⟨h1, h2⟩ := abs_le.mp ht
  have : t = -1 ∨ t = 0 ∨ t = 1 := by omega
  rcases this with h | h | h <;> simp [h, intToTrit]

/-! ### The truncated polynomial ring

Modelled from the spec: the Polynomial Ring Engine (spec section 4.2)
works with ordered sequences of `N` coefficients interpreted in the ring
of polynomials modulo `x ^ N - 1`; multiplication is the cyclic
convolution with result coefficient `k` equal to the sum over `i` of
`a i * b ((k - i) mod N)`. -/

/-- Modelled from the spec: a polynomial of the truncated ring, an ordered
sequence of `N` coefficients. -/
def CycPoly (N : ℕ) (R : Type) : Type :=
  Fin N → R

namespace CycPoly

variable {N : ℕ} {R : Type}

instance [DecidableEq R] : DecidableEq (CycPoly N R) :=
  inferInstanceAs (DecidableEq (Fin N → R))

instance [Fintype R] [DecidableEq R] : Fintype (CycPoly N R) :=
  inferInstanceAs (Fintype (Fin N → R))

instance [AddCommGroup R] : AddCommGroup (CycPoly N R) :=
  inferInstanceAs (AddCommGroup (Fin N → R))

instance [Zero R] [One R] : One (CycPoly N R) :=
  ⟨fun k => if (k : ℕ) = 0 then 1 else 0⟩

theorem ext {a b : CycPoly N R} (h : ∀ k, a k = b k) : a = b := funext h

theorem add_apply [AddCommGroup R] (a b : CycPoly N R) (k : Fin N) :
    (a + b) k = a k + b k := rfl

theorem smul_apply [AddCommGroup R] (z : ℤ) (a : CycPoly N R) (k : Fin N) :
    (z • a) k = z • a k := rfl

theorem one_apply [Zero R] [One R] (k : Fin N) :
    (1 : CycPoly N R) k = if (k : ℕ) = 0 then 1 else 0 := rfl

/-- Modelled from the spec: cyclic convolution, the ring multiplication of
the Polynomial Ring Engine. -/
def conv [CommRing R] (a b : CycPoly N R) : CycPoly N R :=
  fun k => ∑ i, a i * b (k - i)

variable [CommRing R]

theorem conv_apply (a b : CycPoly N R) (k : Fin N) :
    conv a b k = ∑ i, a i * b (k - i) := rfl

section Lemmas

variable [NeZero N]

theorem conv_comm (a b : CycPoly N R) : conv a b = conv b a := by
  refine ext fun k => ?_
  rw [conv_apply, conv_apply]
  refine Fintype.sum_equiv (Equiv.subLeft k) _ _ fun i => ?_
  rw [Equiv.subLeft_apply, sub_sub_cancel, mul_comm]

theorem conv_assoc (a b c : CycPoly N R) :
    conv (conv a b) c = conv a (conv b c) := by
  refine ext fun k => ?_
  have lhs : conv (conv a b) c k = ∑ i, ∑ j, a j * b (i - j) * c (k - i) := by
    rw [conv_apply]
    exact Finset.sum_congr rfl fun i _ => by rw [conv_apply, Finset.sum_mul]
  rw [lhs, Finset.sum_comm]
  rw [conv_apply]
  refine Finset.sum_congr rfl fun j _ => ?_
  rw [conv_apply, Finset.mul_sum]
  refine (Fintype.sum_equiv (Equiv.addLeft j) _ _ fun t => ?_).symm
  simp only [Equiv.coe_addLeft, add_sub_cancel_left, sub_add_eq_sub_sub, mul_assoc]

theorem one_conv (a : CycPoly N R) : conv 1 a = a := by
  refine ext fun k => ?_
  rw [conv_apply]
  have h0 : ((0 : Fin N) : ℕ) = 0 := rfl
  have : ∀ i : Fin N, (1 : CycPoly N R) i * a (k - i) =
      if i = 0 then a (k - i) else 0 := by
    intro i
    rw [one_apply]
    by_cases hi : i = (0 : Fin N)
    · simp [hi]
    · have : ¬ ((i : ℕ) = 0) := fun hc => hi (Fin.ext (by simp [hc, h0]))
      simp [this, hi]
  rw [Finset.sum_congr rfl fun i _ => this i, Finset.sum_ite_eq' Finset.univ 0]
  simp

theorem conv_one (a : CycPoly N R) : conv a 1 = a := by
  rw [conv_comm, one_conv]

instance : CommMonoid (CycPoly N R) where
  mul := conv
  mul_assoc := conv_assoc
  one := One.one
  one_mul := one_conv
  mul_one := conv_one
  mul_comm := conv_comm

theorem mul_def (a b : CycPoly N R) : a * b = conv a b := rfl

theorem conv_add (a b c : CycPoly N R) :
    conv a (b + c) = conv a b + conv a c := by
  refine ext fun k => ?_
  rw [add_apply, conv_apply, conv_apply, conv_apply, ← Finset.sum_add_distrib]
  exact Finset.sum_congr rfl fun i _ => by rw [add_apply, mul_add]

theorem add_conv (a b c : CycPoly N R) :
    conv (a + b) c = conv a c + conv b c := by
  rw [conv_comm, conv_add, conv_comm c a, conv_comm c b]

theorem conv_smul (z : ℤ) (a b : CycPoly N R) :
    conv a (z • b) = z • conv a b := by
  refine ext fun k => ?_
  rw [smul_apply, conv_apply, conv_apply, Finset.smul_sum]
  refine Finset.sum_congr rfl fun i _ => ?_
  rw [smul_apply, zsmul_eq_mul, zsmul_eq_mul]
  ring

theorem smul_conv (z : ℤ) (a b : CycPoly N R) :
    conv (z • a) b = z • conv a b := by
  rw [conv_comm, conv_smul, conv_comm]

end Lemmas

end CycPoly

/-! ### Reduction modulo q and centering -/

/-- Modelled from the spec: coefficient-wise reduction of an integer
polynomial modulo `q` (the engine's mod-q context). -/
def toZq (q : ℕ) {N : ℕ} (a : CycPoly N ℤ) : CycPoly N (ZMod q) :=
  fun k => ((a k : ℤ) : ZMod q)

theorem toZq_apply (q : ℕ) {N : ℕ} (a : CycPoly N ℤ) (k : Fin N) :
    toZq q a k = ((a k : ℤ) : ZMod q) := rfl

section ToZq

variable {q N : ℕ} [NeZero N]

theorem toZq_conv (a b : CycPoly N ℤ) :
    toZq q (CycPoly.conv a b) = CycPoly.conv (toZq q a) (toZq q b) := by
  refine CycPoly.ext fun k => ?_
  rw [toZq_apply, CycPoly.conv_apply, CycPoly.conv_apply]
  push_cast
  rfl

theorem toZq_add (a b : CycPoly N ℤ) :
    toZq q (a + b) = toZq q a + toZq q b := by
  refine CycPoly.ext fun k => ?_
  rw [toZq_apply, CycPoly.add_apply, CycPoly.add_apply, toZq_apply, toZq_apply]
  push_cast
  rfl

theorem toZq_smul (z : ℤ) (a : CycPoly N ℤ) :
    toZq q (z • a) = z • toZq q a := by
  refine CycPoly.ext fun k => ?_
  rw [toZq_apply, CycPoly.smul_apply, CycPoly.smul_apply, toZq_apply,
    zsmul_eq_mul, zsmul_eq_mul]
  push_cast
  ring

theorem toZq_one : toZq q (1 : CycPoly N ℤ) = 1 := by
  refine CycPoly.ext fun k => ?_
  rw [toZq_apply, CycPoly.one_apply, CycPoly.one_apply]
  by_cases h : (k : ℕ) = 0 <;> simp [h]

end ToZq

/-- Modelled from the spec: centered representative of a mod-q residue in
the symmetric interval from `-q/2` (exclusive) to `q/2` (inclusive),
used by the Decryptor before mod-p reduction. -/
def centerVal (q : ℕ) (z : ZMod q) : ℤ :=
  if 2 * z.val ≤ q then (z.val : ℤ) else (z.val : ℤ) - q

/-- Modelled from the spec: centered reduction modulo the small modulus
`p = 3`, recovering a trinary coefficient. -/
def centerZ3 (x : ℤ) : ℤ :=
  if x % 3 = 2 then -1 else x % 3

theorem centerVal_intCast {q : ℕ} [NeZero q] (x : ℤ)
    (h : 2 * x.natAbs < q) : centerVal q ((x : ZMod q)) = x := by
  have hq : 0 < (q : ℤ) := by
    have := Nat.pos_of_ne_zero (NeZero.ne q)
    exact_mod_cast this
  have hval : (((x : ZMod q)).val : ℤ) = x % q := ZMod.val_intCast x
  have habs : 2 * |x| < q := by
    rw [Int.abs_eq_natAbs]
    exact_mod_cast h
  rcases le_or_lt 0 x with hx | hx
  · have hxq : x < q := by
      have : |x| = x := abs_of_nonneg hx
      omega
    have hmod : x % (q : ℤ) = x := Int.emod_eq_of_lt hx hxq
    rw [centerVal]
    have h2 : 2 * ((x : ZMod q)).val ≤ q := by
      have : (((x : ZMod q)).val : ℤ) = x := by rw [hval, hmod]
      have habs' : 2 * x ≤ q := by
        have : |x| = x := abs_of_nonneg hx
        omega
      omega
    rw [if_pos h2, hval, hmod]
  · have hxq : 0 ≤ x + q := by
      have : |x| = -x := abs_of_neg hx
      omega
    have hxq' : x + q < q := by omega
    have hmod : x % (q : ℤ) = x + q := by
      have h1 : (x + (q : ℤ) * 1) % q = x % q := Int.add_mul_emod_self_left x q 1
      rw [mul_one] at h1
      rw [← h1, Int.emod_eq_of_lt hxq hxq']
    rw [centerVal]
    have h2 : ¬ (2 * ((x : ZMod q)).val ≤ q) := by
      have hv : (((x : ZMod q)).val : ℤ) = x + q := by rw [hval, hmod]
      have : |x| = -x := abs_of_neg hx
      omega
    rw [if_neg h2]
    have hv : (((x : ZMod q)).val : ℤ) = x + q := by rw [hval, hmod]
    omega

/-! ### Parameter sets

Modelled from the spec: the ParameterSet Registry (spec sections 3 and
4.1) — ring degree `n`, large modulus `q` (a power of two), small modulus
`p` fixed to 3, numbers of +1 and -1 coefficients for the private polynomial
component `F`, the key-generation polynomial `g` and the blinding
polynomial `r`, padding bit count `db`, maximum plaintext length, and
derived encoding lengths. -/

/-- Modelled from the spec: a named parameter set.  `bits` is the number
of bits each mod-q coefficient occupies in the public-key and ciphertext
encodings. -/
structure Params where
  name : String
  n : ℕ
  q : ℕ
  bits : ℕ
  dF1 : ℕ
  dF2 : ℕ
  dg1 : ℕ
  dg2 : ℕ
  dr1 : ℕ
  dr2 : ℕ
  db : ℕ
  maxMsgLenField : ℕ

namespace Params

/-- Accessor mirroring the source's `get_name()`. -/
def get_name (ps : Params) : String := ps.name

/-- Accessor mirroring the source's `get_n()`. -/
def get_n (ps : Params) : ℕ := ps.n

/-- Accessor mirroring the source's `get_q()`. -/
def get_q (ps : Params) : ℕ := ps.q

/-- Accessor mirroring the source's `get_db()`. -/
def get_db (ps : Params) : ℕ := ps.db

/-- Accessor mirroring the source's `max_msg_len()`. -/
def max_msg_len (ps : Params) : ℕ := ps.maxMsgLenField

/-- Modelled from the spec: derived public-key encoding length, the
mod-q coefficients bit-packed into bytes.  Mirrors the source's
`public_len()`. -/
def public_len (ps : Params) : ℕ := (ps.n * ps.bits + 7) / 8

/-- Modelled from the spec: derived private-key encoding length, trinary
coefficients packed two bits each.  Mirrors the source's
`private_len()`. -/
def private_len (ps : Params) : ℕ := (2 * ps.n + 7) / 8

/-- Modelled from the spec: derived ciphertext encoding length, packed
identically to the public key.  Mirrors the source's `enc_len()`. -/
def enc_len (ps : Params) : ℕ := ps.public_len

/-- Modelled from the spec: well-formedness of a parameter set — positive
degree, `q` a power of two at least 4 that fits in `bits` bits, a message
layout (length field, message trits, marker, padding) that fits in the
ring degree, a length field wide enough for every message length, and the
decryption margin guaranteeing that centered mod-q reduction is exact. -/
def WF (ps : Params) : Prop :=
  0 < ps.n ∧ 2 ≤ ps.bits ∧ (∃ e : ℕ, ps.q = 2 ^ e) ∧ 4 ≤ ps.q ∧
    ps.q ≤ 2 ^ ps.bits ∧
    6 + 6 * ps.maxMsgLenField + 3 + ps.db ≤ ps.n ∧
    ps.maxMsgLenField < 3 ^ 6 ∧
    2 * (3 * (ps.dr1 + ps.dr2 + ps.dF1 + ps.dF2) + 1) < ps.q

end Params

/-- The default "256-bit security" parameter set named by the source's
`DEFAULT_PARAMS_256_BITS`.  Modelled from the spec: its numeric values are
not recorded in the repository; these choices satisfy the spec's
invariants (q a power of two, p = 3, layout and margin constraints). -/
def DEFAULT_PARAMS_256_BITS : Params :=
  ⟨"EES743EP1", 743, 2048, 11, 85, 85, 85, 85, 85, 85, 256, 79⟩

/-! ### Random sampling

Modelled from the spec: the Random Sampling Subsystem (spec section 4.3).
A `RandContext` wraps the process-wide secure random source as a stream of
draws; `sample_trinary` places the prescribed numbers of +1 and -1
coefficients at stream-chosen positions without replacement. -/

/-- Modelled from the spec: handle to the secure random source, a stream
of random natural numbers consumed one index at a time. -/
structure RandContext where
  stream : ℕ → ℕ

/-- Modelled from the spec: the entropy source underlying `rand::init`;
`none` models an unavailable source. -/
abbrev EntropySource : Type := Option (ℕ → ℕ)

/-- Modelled from the spec: `RngError` failure kind of RNG initialization. -/
inductive RngError where
  | RngUnavailable : RngError
  deriving DecidableEq

/-- Modelled from the spec: `rand::init` returns a `RandContext` or a
typed `RngUnavailable` failure. -/
def rand_init (src : EntropySource) : Except RngError RandContext :=
  match src with
  | none => .error .RngUnavailable
  | some s => .ok ⟨s⟩

/-- Overwrite one coefficient. -/
def updCoeff {N : ℕ} (a : CycPoly N ℤ) (pos : Fin N) (v : ℤ) : CycPoly N ℤ :=
  fun k => if k = pos then v else a k

/-- Modelled from the spec: the position-placement loop of
`sample_trinary` — each value in `vals` is placed at a stream-chosen
position drawn from the list of still-free positions. -/
def placeVals {N : ℕ} : List ℤ → List (Fin N) → (ℕ → ℕ) → ℕ →
    CycPoly N ℤ → CycPoly N ℤ × ℕ
  | [], _, _, ctr, acc => (acc, ctr)
  | v :: vs, free, stream, ctr, acc =>
    match free.get? (stream ctr % free.length) with
    | none => placeVals vs free stream (ctr + 1) acc
    | some pos => placeVals vs (free.eraseIdx (stream ctr % free.length))
        stream (ctr + 1) (updCoeff acc pos v)

/-- Modelled from the spec: `sample_trinary` produces a polynomial with
the prescribed numbers of +1 and -1 coefficients, positions chosen by the
random stream without replacement; returns the polynomial and the index
of the next unused stream draw. -/
def sample_trinary (N dp dm : ℕ) (stream : ℕ → ℕ) (ctr : ℕ) :
    CycPoly N ℤ × ℕ :=
  placeVals (List.replicate dp 1 ++ List.replicate dm (-1))
    (List.finRange N) stream ctr 0

/-! ### Keys

Modelled from the spec: `PrivateKey` wraps the near-trinary ring element
`f`; this model stores the trinary polynomial `F` with `f = 1 + 3 F`, so
that `f` is congruent to 1 modulo `p = 3` (hence trivially invertible
modulo p, and the spec's Decryptor — which applies no mod-p inverse of
`f` — is exact).  `PublicKey` wraps the mod-q polynomial `h`. -/

/-- Modelled from the spec: the private key, storing the trinary
component `F` of `f = 1 + 3 F`. -/
structure PrivateKey (ps : Params) where
  F : CycPoly ps.n ℤ

/-- Modelled from the spec: the public key, wrapping the mod-q
polynomial `h`. -/
structure PublicKey (ps : Params) where
  h : CycPoly ps.n (ZMod ps.q)

/-- Modelled from the spec: ownership pairing of a private and a public
key; the pairing is an application-level assertion (`KeyPair::new` in the
source). -/
structure KeyPair (ps : Params) where
  priv : PrivateKey ps
  pub : PublicKey ps

/-- Modelled from the spec: the near-trinary private ring element
`f = 1 + 3 F`. -/
def fPoly {ps : Params} (sk : PrivateKey ps) : CycPoly ps.n ℤ :=
  1 + (3 : ℤ) • sk.F

/-! ### Ring inversion

Modelled from the spec: `invert(a, m)` returns the multiplicative inverse
of `a` modulo `(m, x^N - 1)` when it exists.  The model searches the
powers of `a` in the finite ring: if some power `a ^ k` equals one, then
`a ^ (k - 1)` is the inverse; the search budget `q ^ N` covers the whole
unit group, so the search succeeds exactly on the invertible elements. -/

/-- One step of the inverse search: `pw` is the running power of `f`. -/
def invertAux {N q : ℕ} (f : CycPoly N (ZMod q)) :
    CycPoly N (ZMod q) → ℕ → Option (CycPoly N (ZMod q))
  | _, 0 => none
  | pw, fuel + 1 =>
    if CycPoly.conv pw f = 1 then some pw
    else invertAux f (CycPoly.conv pw f) fuel

/-- Modelled from the spec: `invert` in the mod-q ring. -/
def invert {N q : ℕ} (f : CycPoly N (ZMod q)) : Option (CycPoly N (ZMod q)) :=
  invertAux f 1 (q ^ N)

theorem invertAux_sound {N q : ℕ} (f : CycPoly N (ZMod q)) :
    ∀ (fuel : ℕ) (pw u : CycPoly N (ZMod q)),
      invertAux f pw fuel = some u → CycPoly.conv u f = 1
  | fuel + 1, pw, u, h => by
    rw [invertAux] at h
    by_cases hc : CycPoly.conv pw f = 1
    · rw [if_pos hc] at h
      exact (Option.some_inj.mp h) ▸ hc
    · rw [if_neg hc] at h
      exact invertAux_sound f fuel _ u h

theorem invert_sound {N q : ℕ} {f u : CycPoly N (ZMod q)}
    (h : invert f = some u) : CycPoly.conv u f = 1 :=
  invertAux_sound f _ 1 u h

section InvertComplete

variable {N q : ℕ} [NeZero N] [NeZero q]

theorem invertAux_complete (f : CycPoly N (ZMod q)) :
    ∀ (fuel j : ℕ), (∃ k, j < k ∧ k ≤ j + fuel ∧ f ^ k = 1) →
      ∃ u, invertAux f (f ^ j) fuel = some u
  | 0, j, ⟨k, hk1, hk2, _⟩ => absurd (lt_of_lt_of_le hk1 hk2) (by omega)
  | fuel + 1, j, ⟨k, hk1, hk2, hk3⟩ => by
    rw [invertAux]
    have hstep : CycPoly.conv (f ^ j) f = f ^ (j + 1) := by
      rw [← CycPoly.mul_def, ← pow_succ]
    by_cases hc : CycPoly.conv (f ^ j) f = 1
    · exact ⟨f ^ j, by rw [if_pos hc]⟩
    · rw [if_neg hc, hstep]
      refine invertAux_complete f fuel (j + 1) ⟨k, ?_, by omega, hk3⟩
      rcases Nat.lt_or_ge (j + 1) k with h | h
      · exact h
      · exfalso
        have : k = j + 1 := by omega
        exact hc (by rw [hstep, ← this, hk3])

theorem card_cycPoly : Fintype.card (CycPoly N (ZMod q)) = q ^ N := by
  have h1 : Fintype.card (CycPoly N (ZMod q)) =
      Fintype.card (Fin N → ZMod q) := rfl
  rw [h1, Fintype.card_fun, ZMod.card, Fintype.card_fin]

theorem invert_complete {f : CycPoly N (ZMod q)}
    (hf : ∃ u, CycPoly.conv f u = 1) :
    ∃ u, invert f = some u := by
  obtain ⟨v, hv⟩ := hf
  have hunit : IsUnit f := isUnit_of_mul_eq_one f v hv
  obtain ⟨w, hw⟩ := hunit
  have hcardpos : 0 < Fintype.card ((CycPoly N (ZMod q))ˣ) := Fintype.card_pos
  have hcardle : Fintype.card ((CycPoly N (ZMod q))ˣ) ≤
      Fintype.card (CycPoly N (ZMod q)) :=
    Fintype.card_le_of_injective Units.val Units.ext
  have hpoww : w ^ Fintype.card ((CycPoly N (ZMod q))ˣ) = 1 := pow_card_eq_one
  have hpow : f ^ Fintype.card ((CycPoly N (ZMod q))ˣ) = 1 := by
    calc f ^ Fintype.card ((CycPoly N (ZMod q))ˣ)
        = (w : CycPoly N (ZMod q)) ^ Fintype.card ((CycPoly N (ZMod q))ˣ) := by
          rw [hw]
      _ = ((w ^ Fintype.card ((CycPoly N (ZMod q))ˣ) : (CycPoly N (ZMod q))ˣ) :
            CycPoly N (ZMod q)) := (Units.val_pow_eq_pow_val w _).symm
      _ = (((1 : (CycPoly N (ZMod q))ˣ)) : CycPoly N (ZMod q)) := by rw [hpoww]
      _ = 1 := rfl
  have hex : ∃ k, 0 < k ∧ k ≤ 0 + q ^ N ∧ f ^ k = 1 :=
    ⟨Fintype.card ((CycPoly N (ZMod q))ˣ), hcardpos, by
      have := le_trans hcardle (le_of_eq card_cycPoly)
      omega, hpow⟩
  obtain ⟨u, hu⟩ := invertAux_complete f (q ^ N) 0 hex
  refine ⟨u, ?_⟩
  rw [invert, ← pow_zero f]
  exact hu

end InvertComplete

theorem centerZ3_eq {t : ℤ} (B : ℤ) (ht : |t| ≤ 1) : centerZ3 (t + 3 * B) = t := by
  have hmod : (t + 3 * B) % 3 = t % 3 := by omega
  obtain ⟨h1, h2⟩ := abs_le.mp ht
  have : t = -1 ∨ t = 0 ∨ t = 1 := by omega
  rw [centerZ3, hmod]
  rcases this with h | h | h <;> subst h <;> decide

/-! ### Sampler postconditions -/

/-- Sum of coefficient absolute values, the sampling weight of a
polynomial. -/
def absWeight {N : ℕ} (x : CycPoly N ℤ) : ℤ :=
  ∑ k, |x k|

theorem updCoeff_apply {N : ℕ} (a : CycPoly N ℤ) (pos : Fin N) (v : ℤ)
    (k : Fin N) : updCoeff a pos v k = if k = pos then v else a k := rfl

theorem absWeight_updCoeff_le {N : ℕ} (a : CycPoly N ℤ) (pos : Fin N)
    (v : ℤ) : absWeight (updCoeff a pos v) ≤ absWeight a + |v| := by
  have hsplit : absWeight (updCoeff a pos v) =
      |updCoeff a pos v pos| + ∑ k ∈ Finset.univ.erase pos, |updCoeff a pos v k| :=
    (Finset.add_sum_erase Finset.univ _ (Finset.mem_univ pos)).symm
  have hpos : |updCoeff a pos v pos| = |v| := by rw [updCoeff_apply, if_pos rfl]
  have hrest : ∑ k ∈ Finset.univ.erase pos, |updCoeff a pos v k| =
      ∑ k ∈ Finset.univ.erase pos, |a k| := by
    refine Finset.sum_congr rfl fun k hk => ?_
    rw [updCoeff_apply, if_neg (Finset.ne_of_mem_erase hk)]
  have hsub : ∑ k ∈ Finset.univ.erase pos, |a k| ≤ absWeight a := by
    refine Finset.sum_le_sum_of_subset_of_nonneg (Finset.erase_subset pos _)
      fun k _ _ => abs_nonneg (a k)
  rw [hsplit, hpos, hrest]
  omega

theorem placeVals_trinary {N : ℕ} :
    ∀ (vals : List ℤ) (free : List (Fin N)) (stream : ℕ → ℕ) (ctr : ℕ)
      (acc : CycPoly N ℤ), (∀ v ∈ vals, |v| ≤ 1) → (∀ k, |acc k| ≤ 1) →
      ∀ k, |(placeVals vals free stream ctr acc).1 k| ≤ 1
  | [], _, _, _, acc, _, hacc, k => hacc k
  | v :: vs, free, stream, ctr, acc, hv, hacc, k => by
    rw [placeVals]
    have hv1 : |v| ≤ 1 := hv v (List.mem_cons_self v vs)
    have hvs : ∀ x ∈ vs, |x| ≤ 1 := fun x hx => hv x (List.mem_cons_of_mem v hx)
    cases hget : free.get? (stream ctr % free.length) with
    | none => exact placeVals_trinary vs free stream (ctr + 1) acc hvs hacc k
    | some pos =>
      refine placeVals_trinary vs _ stream (ctr + 1) _ hvs (fun j => ?_) k
      rw [updCoeff_apply]
      by_cases hj : j = pos
      · rw [if_pos hj]; exact hv1
      · rw [if_neg hj]; exact hacc j

theorem placeVals_weight {N : ℕ} :
    ∀ (vals : List ℤ) (free : List (Fin N)) (stream : ℕ → ℕ) (ctr : ℕ)
      (acc : CycPoly N ℤ), (∀ v ∈ vals, |v| ≤ 1) →
      absWeight (placeVals vals free stream ctr acc).1 ≤
        absWeight acc + vals.length
  | [], _, _, _, acc, _ => by rw [placeVals]; simp
  | v :: vs, free, stream, ctr, acc, hv => by
    have hv1 : |v| ≤ 1 := hv v (List.mem_cons_self v vs)
    have hvs : ∀ x ∈ vs, |x| ≤ 1 := fun x hx => hv x (List.mem_cons_of_mem v hx)
    cases hget : free.get? (stream ctr % free.length) with
    | none =>
      have hred : placeVals (v :: vs) free stream ctr acc =
          placeVals vs free stream (ctr + 1) acc := by
        rw [placeVals, hget]
      rw [hred]
      have := placeVals_weight vs free stream (ctr + 1) acc hvs
      have hlen : ((v :: vs).length : ℤ) = vs.length + 1 := by
        rw [List.length_cons]; push_cast; ring
      omega
    | some pos =>
      have hred : placeVals (v :: vs) free stream ctr acc =
          placeVals vs (free.eraseIdx (stream ctr % free.length)) stream
            (ctr + 1) (updCoeff acc pos v) := by
        rw [placeVals, hget]
      rw [hred]
      have h1 := placeVals_weight vs (free.eraseIdx (stream ctr % free.length))
        stream (ctr + 1) (updCoeff acc pos v) hvs
      have h2 := absWeight_updCoeff_le acc pos v
      have hlen : ((v :: vs).length : ℤ) = vs.length + 1 := by
        rw [List.length_cons]; push_cast; ring
      omega

theorem absWeight_zero {N : ℕ} : absWeight (0 : CycPoly N ℤ) = 0 := by
  rw [absWeight]
  refine Finset.sum_eq_zero fun k _ => ?_
  have : (0 : CycPoly N ℤ) k = 0 := rfl
  rw [this, abs_zero]

theorem sample_trinary_trinary {N dp dm : ℕ} (stream : ℕ → ℕ) (ctr : ℕ) :
    ∀ k, |(sample_trinary N dp dm stream ctr).1 k| ≤ 1 := by
  refine placeVals_trinary _ _ stream ctr 0 (fun v hv => ?_) (fun k => ?_)
  · rcases List.mem_append.mp hv with h | h
    · rw [List.eq_of_mem_replicate h]; decide
    · rw [List.eq_of_mem_replicate h]; decide
  · have : (0 : CycPoly N ℤ) k = 0 := rfl
    rw [this, abs_zero]; decide

theorem sample_trinary_weight {N dp dm : ℕ} (stream : ℕ → ℕ) (ctr : ℕ) :
    absWeight (sample_trinary N dp dm stream ctr).1 ≤ dp + dm := by
  have h := placeVals_weight
    (List.replicate dp (1 : ℤ) ++ List.replicate dm (-1))
    (List.finRange N) stream ctr 0 (fun v hv => by
      rcases List.mem_append.mp hv with h | h
      · rw [List.eq_of_mem_replicate h]; decide
      · rw [List.eq_of_mem_replicate h]; decide)
  rw [absWeight_zero] at h
  have hlen : (List.replicate dp (1 : ℤ) ++ List.replicate dm (-1)).length
      = dp + dm := by
    rw [List.length_append, List.length_replicate, List.length_replicate]
  rw [sample_trinary]
  rw [hlen] at h
  omega

/-! ### Key generation

Modelled from the spec: the Key Generator (spec section 4.4) repeatedly
samples a private candidate with the prescribed trinary weight, attempts
inversion modulo q (inversion modulo p = 3 is immediate since
`f = 1 + 3 F`), and on success samples `g` and computes the public
polynomial `h = p * invert(f, q) * g` in the mod-q ring; exhausting the
bounded retry budget fails with `NoInvertibleCandidate`. -/

/-- Modelled from the spec: `KeyGenError` failure kinds. -/
inductive KeyGenError where
  | NoInvertibleCandidate : KeyGenError
  deriving DecidableEq

/-- Modelled from the spec: derive a public key from an existing private
key plus a freshly sampled `g` (the engine's `generate_public`). -/
def generate_public (ps : Params) (sk : PrivateKey ps) (rand : RandContext) :
    Except KeyGenError (PublicKey ps) :=
  match invert (toZq ps.q (fPoly sk)) with
  | none => .error .NoInvertibleCandidate
  | some fq =>
    .ok ⟨(3 : ℤ) • CycPoly.conv fq
      (toZq ps.q (sample_trinary ps.n ps.dg1 ps.dg2 rand.stream 0).1)⟩

/-- Modelled from the spec: the bounded retry loop of the Key Generator. -/
def tryGen (ps : Params) (stream : ℕ → ℕ) :
    ℕ → ℕ → Except KeyGenError (KeyPair ps)
  | 0, _ => .error .NoInvertibleCandidate
  | fuel + 1, ctr =>
    match invert (toZq ps.q
        (fPoly ⟨(sample_trinary ps.n ps.dF1 ps.dF2 stream ctr).1⟩)) with
    | none => tryGen ps stream fuel (sample_trinary ps.n ps.dF1 ps.dF2 stream ctr).2
    | some fq =>
      .ok ⟨⟨(sample_trinary ps.n ps.dF1 ps.dF2 stream ctr).1⟩,
        ⟨(3 : ℤ) • CycPoly.conv fq
          (toZq ps.q (sample_trinary ps.n ps.dg1 ps.dg2 stream
            (sample_trinary ps.n ps.dF1 ps.dF2 stream ctr).2).1)⟩⟩

/-- Modelled from the spec: `generate_key_pair` with the spec's example
retry budget of 1000 attempts. -/
def generate_key_pair (ps : Params) (rand : RandContext) :
    Except KeyGenError (KeyPair ps) :=
  tryGen ps rand.stream 1000 0

/-! ### Key encodings

Modelled from the spec (section 6): the public key is the mod-q
coefficients of `h` bit-packed little-endian, `bits` bits per
coefficient; the private key is the trinary coefficients of `F` packed
two bits per coefficient. -/

/-- Modelled from the spec: fixed-length public-key export. -/
def PublicKey.exportKey {ps : Params} (pk : PublicKey ps) : List ℕ :=
  toDigits 256 ps.public_len
    (ofDigits (2 ^ ps.bits) (List.ofFn fun k => (pk.h k).val))

/-- Modelled from the spec: public-key import from a byte buffer
(`PublicKey::import` in the source). -/
def PublicKey.importKey (ps : Params) (bytes : List ℕ) : PublicKey ps :=
  ⟨fun k =>
    (((toDigits (2 ^ ps.bits) ps.n (ofDigits 256 bytes)).getD (k : ℕ) 0 : ℕ) :
      ZMod ps.q)⟩

/-- Modelled from the spec: fixed-length private-key export. -/
def PrivateKey.exportKey {ps : Params} (sk : PrivateKey ps) : List ℕ :=
  toDigits 256 ps.private_len
    (ofDigits 4 (List.ofFn fun k => intToTrit (sk.F k)))

/-- Modelled from the spec: private-key import from a byte buffer
(`PrivateKey::import` in the source). -/
def PrivateKey.importKey (ps : Params) (bytes : List ℕ) : PrivateKey ps :=
  ⟨fun k => tritToInt ((toDigits 4 ps.n (ofDigits 256 bytes)).getD (k : ℕ) 0)⟩

theorem getD_ofFn {α : Type} {n : ℕ} (f : Fin n → α) (d : α) (k : Fin n) :
    (List.ofFn f).getD (k : ℕ) d = f k := by
  have hk : (k : ℕ) < (List.ofFn f).length := by
    rw [List.length_ofFn]; exact k.isLt
  rw [List.getD_eq_getElem _ _ hk, List.getElem_ofFn]

theorem publicKey_roundtrip {ps : Params} (hWF : ps.WF) (pk : PublicKey ps) :
    PublicKey.importKey ps pk.exportKey = pk := by
  obtain ⟨hn, hbits, ⟨e, hq⟩, hq4, hqle, hlay, hmax, hmargin⟩ := hWF
  haveI : NeZero ps.q := ⟨by omega⟩
  have hvals : ∀ d ∈ List.ofFn (fun k => (pk.h k).val), d < 2 ^ ps.bits := by
    intro d hd
    obtain ⟨k, hk⟩ := (List.mem_ofFn _ _).mp hd
    have hlt := ZMod.val_lt (pk.h k)
    have hk2 : (pk.h k).val = d := hk
    omega
  have hlen : (List.ofFn fun k => (pk.h k).val).length = ps.n :=
    List.length_ofFn _
  have hB : 0 < 2 ^ ps.bits := Nat.pos_pow_of_pos _ (by omega)
  have hofle : ofDigits (2 ^ ps.bits) (List.ofFn fun k => (pk.h k).val) <
      256 ^ ps.public_len := by
    have h1 := ofDigits_lt (2 ^ ps.bits) hB _ hvals
    rw [hlen] at h1
    have h2 : (2 ^ ps.bits) ^ ps.n ≤ 256 ^ ps.public_len := by
      have haux : ∀ m : ℕ, m ≤ 8 * ((m + 7) / 8) := fun m => by omega
      have hexp : ps.bits * ps.n ≤ 8 * ps.public_len := by
        rw [Params.public_len, Nat.mul_comm ps.bits ps.n]
        exact haux _
      calc (2 ^ ps.bits) ^ ps.n = 2 ^ (ps.bits * ps.n) := by
            rw [← pow_mul]
        _ ≤ 2 ^ (8 * ps.public_len) := Nat.pow_le_pow_right (by omega) hexp
        _ = (2 ^ 8) ^ ps.public_len := by rw [pow_mul]
        _ = 256 ^ ps.public_len := by norm_num
    omega
  have hback : ofDigits 256 (PublicKey.exportKey pk) =
      ofDigits (2 ^ ps.bits) (List.ofFn fun k => (pk.h k).val) := by
    rw [PublicKey.exportKey]
    exact ofDigits_toDigits 256 (by omega) ps.public_len _ hofle
  rcases pk with ⟨h⟩
  refine congrArg PublicKey.mk (CycPoly.ext fun k => ?_)
  have hdig : toDigits (2 ^ ps.bits) ps.n
      (ofDigits 256 (PublicKey.exportKey ⟨h⟩)) =
      List.ofFn fun k => (h k).val := by
    have h0 := toDigits_ofDigits (2 ^ ps.bits) hB _ hvals
    rw [hlen] at h0
    rw [hback]
    exact h0
  show (((toDigits (2 ^ ps.bits) ps.n
      (ofDigits 256 (PublicKey.exportKey ⟨h⟩))).getD (k : ℕ) 0 : ℕ) :
        ZMod ps.q) = h k
  rw [hdig, getD_ofFn]
  exact ZMod.natCast_rightInverse (h k)

theorem privateKey_roundtrip {ps : Params} (hWF : ps.WF)
    (sk : PrivateKey ps) (htri : ∀ k, |sk.F k| ≤ 1) :
    PrivateKey.importKey ps sk.exportKey = sk := by
  obtain ⟨hn, hbits, ⟨e, hq⟩, hq4, hqle, hlay, hmax, hmargin⟩ := hWF
  have hvals : ∀ d ∈ List.ofFn (fun k => intToTrit (sk.F k)), d < 4 := by
    intro d hd
    obtain ⟨k, hk⟩ := (List.mem_ofFn _ _).mp hd
    have hlt := intToTrit_lt (htri k)
    have hk2 : intToTrit (sk.F k) = d := hk
    omega
  have hlen : (List.ofFn fun k => intToTrit (sk.F k)).length = ps.n :=
    List.length_ofFn _
  have hofle : ofDigits 4 (List.ofFn fun k => intToTrit (sk.F k)) <
      256 ^ ps.private_len := by
    have h1 := ofDigits_lt 4 (by omega) _ hvals
    rw [hlen] at h1
    have h2 : (4 : ℕ) ^ ps.n ≤ 256 ^ ps.private_len := by
      have haux : ∀ m : ℕ, m ≤ 8 * ((m + 7) / 8) := fun m => by omega
      have hexp : 2 * ps.n ≤ 8 * ps.private_len := by
        rw [Params.private_len]
        exact haux _
      calc (4 : ℕ) ^ ps.n = 2 ^ (2 * ps.n) := by
            rw [pow_mul]; norm_num
        _ ≤ 2 ^ (8 * ps.private_len) := Nat.pow_le_pow_right (by omega) hexp
        _ = (2 ^ 8) ^ ps.private_len := by rw [pow_mul]
        _ = 256 ^ ps.private_len := by norm_num
    omega
  have hback : ofDigits 256 (PrivateKey.exportKey sk) =
      ofDigits 4 (List.ofFn fun k => intToTrit (sk.F k)) := by
    rw [PrivateKey.exportKey]
    exact ofDigits_toDigits 256 (by omega) ps.private_len _ hofle
  rcases sk with ⟨F⟩
  refine congrArg PrivateKey.mk (CycPoly.ext fun k => ?_)
  have hdig : toDigits 4 ps.n (ofDigits 256 (PrivateKey.exportKey ⟨F⟩)) =
      List.ofFn fun k => intToTrit (F k) := by
    have h0 := toDigits_ofDigits 4 (by omega) _ hvals
    rw [hlen] at h0
    rw [hback]
    exact h0
  show tritToInt ((toDigits 4 ps.n
      (ofDigits 256 (PrivateKey.exportKey ⟨F⟩))).getD (k : ℕ) 0) = F k
  rw [hdig, getD_ofFn]
  exact tritToInt_intToTrit (htri k)

/-! ### Encryption and decryption

Modelled from the spec: the Encryptor (section 4.5) encodes the plaintext
bytes plus a fixed-length random padding segment into a trinary
polynomial `m` (length field, six trits per byte, a fixed structural
marker used by the Decryptor's integrity check, then the padding), samples
the ephemeral blinding polynomial `r`, and outputs the encoding of
`e = r * h + m` in the mod-q ring.  The Decryptor (section 4.6) computes
`f * e` mod q, center-reduces, reduces modulo `p = 3`, and decodes,
failing with `IntegrityCheckFailed` on a marker mismatch and with
`DecodingError` on an inconsistent decoded length. -/

/-- Modelled from the spec: `EncryptError` failure kinds. -/
inductive EncryptError where
  | MessageTooLong : EncryptError
  deriving DecidableEq

/-- Modelled from the spec: `DecryptError` failure kinds. -/
inductive DecryptError where
  | IntegrityCheckFailed : DecryptError
  | DecodingError : DecryptError
  deriving DecidableEq

/-- Modelled from the spec: the fixed structural marker embedded at
encryption time and validated at decryption time. -/
def marker : List ℕ := [1, 2, 1]

/-- Modelled from the spec: trit layout of a padded message — length
field (six trits), six trits per message byte, the marker, then the
random padding trits. -/
def encodeMsg (msg pad : List ℕ) : List ℕ :=
  toDigits 3 6 msg.length ++ ((msg.map (toDigits 3 6)).flatten ++ (marker ++ pad))

/-- Modelled from the spec: the random padding segment, `db` trits drawn
from the stream starting at counter `ctr`. -/
def padTrits (db : ℕ) (stream : ℕ → ℕ) (ctr : ℕ) : List ℕ :=
  (List.range db).map fun i => stream (ctr + i) % 3

/-- Modelled from the spec: a trit list as a trinary polynomial
(positions past the end are zero). -/
def polyOfTrits (N : ℕ) (L : List ℕ) : CycPoly N ℤ :=
  fun k => tritToInt (L.getD (k : ℕ) 0)

/-- Modelled from the spec: ciphertext export, bit-packed identically to
the public key. -/
def exportCipher (ps : Params) (e : CycPoly ps.n (ZMod ps.q)) : List ℕ :=
  toDigits 256 ps.enc_len (ofDigits (2 ^ ps.bits) (List.ofFn fun k => (e k).val))

/-- Modelled from the spec: ciphertext import. -/
def importCipher (ps : Params) (ct : List ℕ) : CycPoly ps.n (ZMod ps.q) :=
  fun k =>
    (((toDigits (2 ^ ps.bits) ps.n (ofDigits 256 ct)).getD (k : ℕ) 0 : ℕ) :
      ZMod ps.q)

/-- Modelled from the spec: the ciphertext polynomial `e = r * h + m` in
the mod-q ring. -/
def cipherPoly {ps : Params} (pub : PublicKey ps) (r m : CycPoly ps.n ℤ) :
    CycPoly ps.n (ZMod ps.q) :=
  CycPoly.conv (toZq ps.q r) pub.h + toZq ps.q m

/-- Modelled from the spec: `encrypt(plaintext, public_key, params, rng)`
— reject over-long plaintexts, then encode, blind and pack. -/
def encrypt {ps : Params} (msg : List ℕ) (pub : PublicKey ps)
    (rand : RandContext) : Except EncryptError (List ℕ) :=
  if ps.max_msg_len < msg.length then .error .MessageTooLong
  else
    .ok (exportCipher ps (cipherPoly pub
      (sample_trinary ps.n ps.dr1 ps.dr2 rand.stream 0).1
      (polyOfTrits ps.n (encodeMsg msg
        (padTrits ps.db rand.stream
          (sample_trinary ps.n ps.dr1 ps.dr2 rand.stream 0).2)))))

/-- Modelled from the spec: the Decryptor's ring computation — `f * e`
mod q, centered reduction, then centered reduction mod `p = 3`. -/
def decryptPoly {ps : Params} (sk : PrivateKey ps)
    (e : CycPoly ps.n (ZMod ps.q)) : CycPoly ps.n ℤ :=
  fun k => centerZ3 (centerVal ps.q (CycPoly.conv (toZq ps.q (fPoly sk)) e k))

/-- Modelled from the spec: decode the recovered trit list — read the
length field, validate it and the structural marker, and rebuild the
plaintext bytes. -/
def parseMsg (ps : Params) (trits : List ℕ) : Except DecryptError (List ℕ) :=
  if ps.max_msg_len < ofDigits 3 (trits.take 6) then .error .DecodingError
  else if (trits.drop (6 + 6 * ofDigits 3 (trits.take 6))).take 3 ≠ marker then
    .error .IntegrityCheckFailed
  else
    .ok ((List.range (ofDigits 3 (trits.take 6))).map fun i =>
      ofDigits 3 ((trits.drop (6 + 6 * i)).take 6))

/-- Modelled from the spec: `decrypt(ciphertext, key_pair, params)`.
Only the private half of the key pair enters the computation; the
caller-supplied pairing is not cryptographically verified. -/
def decrypt {ps : Params} (ct : List ℕ) (kp : KeyPair ps) :
    Except DecryptError (List ℕ) :=
  if ct.length ≠ ps.enc_len then .error .DecodingError
  else parseMsg ps
    (List.ofFn fun k : Fin ps.n =>
      intToTrit (decryptPoly kp.priv (importCipher ps ct) k))

/-! ### List helper lemmas for the layout proofs -/

theorem take_append_len {α : Type} :
    ∀ (l1 l2 : List α), (l1 ++ l2).take l1.length = l1
  | [], _ => rfl
  | a :: l1, l2 => by
    rw [List.cons_append, List.length_cons, List.take_succ_cons,
      take_append_len l1 l2]

theorem drop_append_len {α : Type} :
    ∀ (l1 l2 : List α) (n : ℕ), (l1 ++ l2).drop (l1.length + n) = l2.drop n
  | [], _, _ => by simp
  | a :: l1, l2, n => by
    rw [List.cons_append, List.length_cons]
    have : a :: l1 ++ l2 = a :: (l1 ++ l2) := rfl
    have hn : l1.length + 1 + n = (l1.length + n) + 1 := by omega
    rw [hn, List.drop_succ_cons, drop_append_len l1 l2 n]

theorem length_join_blocks :
    ∀ (msg : List ℕ), ((msg.map (toDigits 3 6)).flatten).length = 6 * msg.length
  | [] => rfl
  | b :: msg => by
    rw [List.map_cons, List.flatten_cons, List.length_append,
      length_toDigits, length_join_blocks msg, List.length_cons]
    ring

theorem join_block_extract :
    ∀ (msg : List ℕ) (rest : List ℕ) (i : ℕ), i < msg.length →
      (((msg.map (toDigits 3 6)).flatten ++ rest).drop (6 * i)).take 6 =
        toDigits 3 6 (msg.getD i 0)
  | b :: msg, rest, 0, _ => by
    rw [List.map_cons, List.flatten_cons, List.append_assoc, Nat.mul_zero,
      List.drop_zero, List.getD_cons_zero]
    have h6 : (6 : ℕ) = (toDigits 3 6 b).length := (length_toDigits 3 6 b).symm
    rw [h6]
    exact take_append_len _ _
  | b :: msg, rest, i + 1, hi => by
    rw [List.map_cons, List.flatten_cons, List.append_assoc, List.getD_cons_succ]
    have h1 : 6 * (i + 1) = (toDigits 3 6 b).length + 6 * i := by
      rw [length_toDigits]; ring
    rw [h1, drop_append_len]
    exact join_block_extract msg rest i (by
      rw [List.length_cons] at hi; omega)

theorem map_getD_range :
    ∀ (l : List ℕ), (List.range l.length).map (fun i => l.getD i 0) = l := by
  intro l
  refine List.ext_getElem ?_ fun i h1 h2 => ?_
  · rw [List.length_map, List.length_range]
  · rw [List.getElem_map, List.getElem_range]
    exact List.getD_eq_getElem l 0 h2

theorem mem_encodeMsg_lt (msg pad : List ℕ)
    (hpad : ∀ d ∈ pad, d < 3) : ∀ d ∈ encodeMsg msg pad, d < 3 := by
  intro d hd
  rw [encodeMsg] at hd
  rcases List.mem_append.mp hd with h | h
  · exact mem_toDigits_lt 3 (by omega) 6 msg.length d h
  · rcases List.mem_append.mp h with h | h
    · obtain ⟨blk, hblk, hdblk⟩ := List.mem_flatten.mp h
      obtain ⟨b, _, hb⟩ := List.mem_map.mp hblk
      exact mem_toDigits_lt 3 (by omega) 6 b d (hb ▸ hdblk)
    · rcases List.mem_append.mp h with h | h
      · have : d = 1 ∨ d = 2 ∨ d = 1 := by simpa [marker] using h
        omega
      · exact hpad d h

theorem length_encodeMsg (msg pad : List ℕ) :
    (encodeMsg msg pad).length = 6 + 6 * msg.length + 3 + pad.length := by
  rw [encodeMsg, List.length_append, List.length_append, List.length_append,
    length_toDigits, length_join_blocks]
  have : marker.length = 3 := rfl
  omega

/-- Coefficient bound for a convolution with a trinary polynomial. -/
theorem abs_conv_le {N : ℕ} (a b : CycPoly N ℤ) (hb : ∀ j, |b j| ≤ 1)
    (k : Fin N) : |CycPoly.conv a b k| ≤ absWeight a := by
  rw [CycPoly.conv_apply]
  calc |∑ i, a i * b (k - i)| ≤ ∑ i, |a i * b (k - i)| :=
        Finset.abs_sum_le_sum_abs _ _
    _ ≤ ∑ i, |a i| := by
        refine Finset.sum_le_sum fun i _ => ?_
        rw [abs_mul]
        exact mul_le_of_le_one_right (abs_nonneg _) (hb (k - i))
    _ = absWeight a := rfl

/-- Modelled from the spec: the invariant of a generated key pair — the
private component is trinary with the prescribed weight, `f = 1 + 3 F` is
invertible mod q with inverse `fq`, and `h = 3 * fq * g` for some trinary
sampled `g` (spec sections 3 and 4.4). -/
def ValidKeyPair (ps : Params) (kp : KeyPair ps) : Prop :=
  (∀ k, |kp.priv.F k| ≤ 1) ∧
  absWeight kp.priv.F ≤ (ps.dF1 : ℤ) + ps.dF2 ∧
  ∃ fq g, CycPoly.conv (toZq ps.q (fPoly kp.priv)) fq = 1 ∧
    (∀ k, |g k| ≤ 1) ∧
    kp.pub.h = (3 : ℤ) • CycPoly.conv fq (toZq ps.q g)

theorem cipher_roundtrip {ps : Params} (hWF : ps.WF)
    (e : CycPoly ps.n (ZMod ps.q)) :
    importCipher ps (exportCipher ps e) = e := by
  have h2 : PublicKey.importKey ps
      (PublicKey.exportKey (⟨e⟩ : PublicKey ps)) = ⟨e⟩ :=
    publicKey_roundtrip hWF ⟨e⟩
  calc importCipher ps (exportCipher ps e)
      = (PublicKey.importKey ps
          (PublicKey.exportKey (⟨e⟩ : PublicKey ps))).h := rfl
    _ = e := by rw [h2]

theorem length_exportCipher (ps : Params) (e : CycPoly ps.n (ZMod ps.q)) :
    (exportCipher ps e).length = ps.enc_len :=
  length_toDigits 256 _ _

section Exact

variable {ps : Params}

theorem conv_four_swap [NeZero ps.n] (a b c d : CycPoly ps.n (ZMod ps.q)) :
    CycPoly.conv a (CycPoly.conv b (CycPoly.conv c d)) =
      CycPoly.conv (CycPoly.conv a c) (CycPoly.conv b d) := by
  simp only [← CycPoly.mul_def]
  rw [mul_left_comm b c d, ← mul_assoc]

/-- The Decryptor inverts the Encryptor's ring transform exactly when the
parameter margin holds: `f * (r * h + m)` centered mod q then centered
mod 3 recovers the encoded trinary polynomial `m`. -/
theorem decryptPoly_exact (hWF : ps.WF) (kp : KeyPair ps)
    (hkp : ValidKeyPair ps kp) (r m : CycPoly ps.n ℤ)
    (hrwt : absWeight r ≤ (ps.dr1 : ℤ) + ps.dr2)
    (hm : ∀ k, |m k| ≤ 1) :
    decryptPoly kp.priv (cipherPoly kp.pub r m) = m := by
  obtain ⟨hn, hbits, ⟨e0, hq⟩, hq4, hqle, hlay, hmax, hmargin⟩ := hWF
  haveI : NeZero ps.n := ⟨by omega⟩
  haveI : NeZero ps.q := ⟨by omega⟩
  obtain ⟨htriF, hwtF, fq, g, hfq, hgtri, hpub⟩ := hkp
  have hzf : toZq ps.q (fPoly kp.priv) =
      1 + (3 : ℤ) • toZq ps.q kp.priv.F := by
    rw [fPoly, toZq_add, toZq_one, toZq_smul]
  have hA : CycPoly.conv (toZq ps.q (fPoly kp.priv)) (cipherPoly kp.pub r m) =
      toZq ps.q (m + (3 : ℤ) •
        (CycPoly.conv r g + CycPoly.conv kp.priv.F m)) := by
    rw [cipherPoly, hpub, CycPoly.conv_add, CycPoly.conv_smul,
      CycPoly.conv_smul, conv_four_swap, hfq, CycPoly.one_conv]
    have hfm : CycPoly.conv (toZq ps.q (fPoly kp.priv)) (toZq ps.q m) =
        toZq ps.q m + (3 : ℤ) •
          CycPoly.conv (toZq ps.q kp.priv.F) (toZq ps.q m) := by
      rw [hzf, CycPoly.add_conv, CycPoly.one_conv, CycPoly.smul_conv]
    rw [hfm, toZq_add, toZq_smul, toZq_add, toZq_conv, toZq_conv]
    abel
  refine CycPoly.ext fun k => ?_
  have hdp : decryptPoly kp.priv (cipherPoly kp.pub r m) k =
      centerZ3 (centerVal ps.q
        (CycPoly.conv (toZq ps.q (fPoly kp.priv)) (cipherPoly kp.pub r m) k)) :=
    rfl
  rw [hdp, hA, toZq_apply]
  have habsB : |(CycPoly.conv r g + CycPoly.conv kp.priv.F m) k| ≤
      ((ps.dr1 : ℤ) + ps.dr2) + ((ps.dF1 : ℤ) + ps.dF2) := by
    have h1 : |CycPoly.conv r g k| ≤ absWeight r := abs_conv_le r g hgtri k
    have h2 : |CycPoly.conv kp.priv.F m k| ≤ absWeight kp.priv.F :=
      abs_conv_le kp.priv.F m hm k
    have h3 : |(CycPoly.conv r g + CycPoly.conv kp.priv.F m) k| ≤
        |CycPoly.conv r g k| + |CycPoly.conv kp.priv.F m k| := by
      rw [CycPoly.add_apply]
      exact abs_add _ _
    omega
  have hAk : (m + (3 : ℤ) •
      (CycPoly.conv r g + CycPoly.conv kp.priv.F m)) k =
      m k + 3 * (CycPoly.conv r g + CycPoly.conv kp.priv.F m) k := by
    rw [CycPoly.add_apply, CycPoly.smul_apply, zsmul_eq_mul]
    norm_num
  have hbound : 2 * ((m + (3 : ℤ) •
      (CycPoly.conv r g + CycPoly.conv kp.priv.F m)) k).natAbs < ps.q := by
    have hmk := hm k
    have habs : |(m + (3 : ℤ) •
        (CycPoly.conv r g + CycPoly.conv kp.priv.F m)) k| ≤
        1 + 3 * (((ps.dr1 : ℤ) + ps.dr2) + ((ps.dF1 : ℤ) + ps.dF2)) := by
      rw [hAk]
      calc |m k + 3 * (CycPoly.conv r g + CycPoly.conv kp.priv.F m) k|
          ≤ |m k| + |3 * (CycPoly.conv r g + CycPoly.conv kp.priv.F m) k| :=
            abs_add _ _
        _ ≤ 1 + 3 * (((ps.dr1 : ℤ) + ps.dr2) + ((ps.dF1 : ℤ) + ps.dF2)) := by
            rw [abs_mul]
            have h30 : |(3 : ℤ)| = 3 := by decide
            rw [h30]
            omega
    have hcast : (((m + (3 : ℤ) •
        (CycPoly.conv r g + CycPoly.conv kp.priv.F m)) k).natAbs : ℤ) =
        |(m + (3 : ℤ) • (CycPoly.conv r g + CycPoly.conv kp.priv.F m)) k| :=
      (Int.abs_eq_natAbs _).symm
    omega
  rw [centerVal_intCast _ hbound, hAk, centerZ3_eq _ (hm k)]

end Exact

/-! ### Parsing the decoded trit layout -/

theorem getD_lt_of_all {L : List ℕ} (hL : ∀ d ∈ L, d < 3) (i : ℕ) :
    L.getD i 0 < 3 := by
  rcases Nat.lt_or_ge i L.length with h | h
  · rw [List.getD_eq_getElem _ _ h]
    exact hL _ (List.getElem_mem h)
  · rw [List.getD_eq_default _ _ h]
    omega

theorem abs_polyOfTrits_le {N : ℕ} (L : List ℕ) (hL : ∀ d ∈ L, d < 3) :
    ∀ k : Fin N, |polyOfTrits N L k| ≤ 1 := fun k =>
  abs_tritToInt (getD_lt_of_all hL (k : ℕ))

theorem trits_of_poly {N : ℕ} (L : List ℕ) (hL : ∀ d ∈ L, d < 3)
    (hlen : L.length ≤ N) :
    (List.ofFn fun k : Fin N => intToTrit (polyOfTrits N L k)) =
      L ++ List.replicate (N - L.length) 0 := by
  refine List.ext_getElem ?_ fun i h1 h2 => ?_
  · rw [List.length_ofFn, List.length_append, List.length_replicate]
    omega
  · rw [List.getElem_ofFn]
    have hval : polyOfTrits N L ⟨i, by simpa using h1⟩ =
        tritToInt (L.getD i 0) := rfl
    rw [hval]
    rcases Nat.lt_or_ge i L.length with h | h
    · rw [List.getD_eq_getElem _ _ h, List.getElem_append_left h,
        intToTrit_tritToInt (hL _ (List.getElem_mem h))]
    · rw [List.getD_eq_default _ _ h, List.getElem_append_right h,
        List.getElem_replicate]
      rfl

theorem mem_padTrits_lt (db : ℕ) (stream : ℕ → ℕ) (ctr : ℕ) :
    ∀ d ∈ padTrits db stream ctr, d < 3 := by
  intro d hd
  obtain ⟨i, _, hi⟩ := List.mem_map.mp hd
  omega

theorem length_padTrits (db : ℕ) (stream : ℕ → ℕ) (ctr : ℕ) :
    (padTrits db stream ctr).length = db := by
  rw [padTrits, List.length_map, List.length_range]

/-- Parsing an encoded layout (followed by any tail) recovers the
original message. -/
theorem parseMsg_encode (ps : Params) (msg pad : List ℕ)
    (hmsglen : msg.length ≤ ps.max_msg_len) (hmax : ps.max_msg_len < 3 ^ 6)
    (hbytes : ∀ b ∈ msg, b < 256) (rest : List ℕ) :
    parseMsg ps (encodeMsg msg pad ++ rest) = .ok msg := by
  have htake6 : (encodeMsg msg pad ++ rest).take 6 = toDigits 3 6 msg.length := by
    rw [encodeMsg, List.append_assoc]
    have h := take_append_len (toDigits 3 6 msg.length)
      (((msg.map (toDigits 3 6)).flatten ++ (marker ++ pad)) ++ rest)
    rw [length_toDigits] at h
    exact h
  have hofd : ofDigits 3 ((encodeMsg msg pad ++ rest).take 6) = msg.length := by
    rw [htake6]
    exact ofDigits_toDigits 3 (by omega) 6 msg.length (by
      have h1 : ps.max_msg_len = ps.maxMsgLenField := rfl
      omega)
  have hdropblocks : ∀ n : ℕ, (encodeMsg msg pad ++ rest).drop (6 + n) =
      ((msg.map (toDigits 3 6)).flatten ++ (marker ++ (pad ++ rest))).drop n := by
    intro n
    rw [encodeMsg, List.append_assoc]
    have h := drop_append_len (toDigits 3 6 msg.length)
      (((msg.map (toDigits 3 6)).flatten ++ (marker ++ pad)) ++ rest) n
    rw [length_toDigits] at h
    rw [h, List.append_assoc, List.append_assoc]
  have hmk : ((encodeMsg msg pad ++ rest).drop (6 + 6 * msg.length)).take 3 =
      marker := by
    rw [hdropblocks (6 * msg.length)]
    have hblk : 6 * msg.length =
        ((msg.map (toDigits 3 6)).flatten).length + 0 := by
      rw [length_join_blocks]
      omega
    rw [hblk, drop_append_len, List.drop_zero]
    have h3 : (3 : ℕ) = marker.length := rfl
    rw [h3]
    exact take_append_len marker (pad ++ rest)
  rw [parseMsg, hofd, if_neg (not_lt.mpr hmsglen), hmk,
    if_neg (fun hc => hc rfl)]
  refine congrArg Except.ok ?_
  calc (List.range msg.length).map
        (fun i => ofDigits 3 (((encodeMsg msg pad ++ rest).drop (6 + 6 * i)).take 6))
      = (List.range msg.length).map (fun i => msg.getD i 0) := by
        refine List.map_congr_left fun i hi => ?_
        have hi' : i < msg.length := List.mem_range.mp hi
        rw [hdropblocks (6 * i),
          join_block_extract msg (marker ++ (pad ++ rest)) i hi']
        refine ofDigits_toDigits 3 (by omega) 6 _ ?_
        rw [List.getD_eq_getElem _ _ hi']
        have := hbytes _ (List.getElem_mem hi')
        omega
    _ = msg := map_getD_range msg

/-- Claim C1's core: with a valid key pair and well-formed parameters, a
successful encryption decrypts back to the plaintext, for every value of
the random stream. -/
theorem encrypt_decrypt_roundtrip (ps : Params) (hWF : ps.WF)
    (kp : KeyPair ps) (hkp : ValidKeyPair ps kp) (msg : List ℕ)
    (hlen : msg.length ≤ ps.max_msg_len) (hbytes : ∀ b ∈ msg, b < 256)
    (rand : RandContext) (ct : List ℕ)
    (henc : encrypt msg kp.pub rand = .ok ct) :
    decrypt ct kp = .ok msg := by
  rw [encrypt, if_neg (not_lt.mpr hlen)] at henc
  have hct : ct = exportCipher ps (cipherPoly kp.pub
      (sample_trinary ps.n ps.dr1 ps.dr2 rand.stream 0).1
      (polyOfTrits ps.n (encodeMsg msg
        (padTrits ps.db rand.stream
          (sample_trinary ps.n ps.dr1 ps.dr2 rand.stream 0).2)))) := by
    cases henc
    rfl
  subst hct
  have hLlt : ∀ d ∈ encodeMsg msg
      (padTrits ps.db rand.stream
        (sample_trinary ps.n ps.dr1 ps.dr2 rand.stream 0).2), d < 3 :=
    mem_encodeMsg_lt msg _ (mem_padTrits_lt ps.db rand.stream _)
  obtain ⟨hn, hbits, ⟨e0, hq⟩, hq4, hqle, hlay, hmax, hmargin⟩ := hWF
  have hWF' : ps.WF := ⟨hn, hbits, ⟨e0, hq⟩, hq4, hqle, hlay, hmax, hmargin⟩
  have hLlen : (encodeMsg msg
      (padTrits ps.db rand.stream
        (sample_trinary ps.n ps.dr1 ps.dr2 rand.stream 0).2)).length ≤ ps.n := by
    rw [length_encodeMsg, length_padTrits]
    have h1 : ps.max_msg_len = ps.maxMsgLenField := rfl
    omega
  rw [decrypt, if_neg (by rw [length_exportCipher]; exact fun hc => hc rfl),
    cipher_roundtrip hWF',
    decryptPoly_exact hWF' kp hkp _ _ (sample_trinary_weight rand.stream 0)
      (abs_polyOfTrits_le _ hLlt),
    trits_of_poly _ hLlt hLlen]
  exact parseMsg_encode ps msg _ hlen (by
    have h1 : ps.max_msg_len = ps.maxMsgLenField := rfl
    omega) hbytes _

/-! ### Generated key pairs satisfy the key invariant -/

theorem tryGen_ok_valid (ps : Params) (hn : 0 < ps.n) (stream : ℕ → ℕ) :
    ∀ (fuel ctr : ℕ) (kp : KeyPair ps),
      tryGen ps stream fuel ctr = .ok kp → ValidKeyPair ps kp
  | 0, ctr, kp, h => by
    rw [tryGen] at h
    exact Except.noConfusion h
  | fuel + 1, ctr, kp, h => by
    haveI : NeZero ps.n := ⟨by omega⟩
    cases hinv : invert (toZq ps.q
        (fPoly ⟨(sample_trinary ps.n ps.dF1 ps.dF2 stream ctr).1⟩)) with
    | none =>
      have hred : tryGen ps stream (fuel + 1) ctr =
          tryGen ps stream fuel (sample_trinary ps.n ps.dF1 ps.dF2 stream ctr).2 := by
        rw [tryGen, hinv]
      rw [hred] at h
      exact tryGen_ok_valid ps hn stream fuel _ kp h
    | some fq =>
      have hred : tryGen ps stream (fuel + 1) ctr =
          .ok ⟨⟨(sample_trinary ps.n ps.dF1 ps.dF2 stream ctr).1⟩,
            ⟨(3 : ℤ) • CycPoly.conv fq
              (toZq ps.q (sample_trinary ps.n ps.dg1 ps.dg2 stream
                (sample_trinary ps.n ps.dF1 ps.dF2 stream ctr).2).1)⟩⟩ := by
        rw [tryGen, hinv]
      rw [hred] at h
      cases h
      refine ⟨sample_trinary_trinary stream ctr,
        sample_trinary_weight stream ctr, fq, _, ?_, sample_trinary_trinary stream _, rfl⟩
      rw [CycPoly.conv_comm]
      exact invert_sound hinv

theorem generate_key_pair_valid (ps : Params) (hn : 0 < ps.n)
    (rand : RandContext) (kp : KeyPair ps)
    (h : generate_key_pair ps rand = .ok kp) : ValidKeyPair ps kp :=
  tryGen_ok_valid ps hn rand.stream 1000 0 kp h

theorem tryGen_total (ps : Params) (stream : ℕ → ℕ) :
    ∀ (fuel ctr : ℕ), (∃ kp, tryGen ps stream fuel ctr = .ok kp) ∨
      tryGen ps stream fuel ctr = .error .NoInvertibleCandidate
  | 0, ctr => Or.inr (by rw [tryGen])
  | fuel + 1, ctr => by
    cases hinv : invert (toZq ps.q
        (fPoly ⟨(sample_trinary ps.n ps.dF1 ps.dF2 stream ctr).1⟩)) with
    | none =>
      have hred : tryGen ps stream (fuel + 1) ctr =
          tryGen ps stream fuel (sample_trinary ps.n ps.dF1 ps.dF2 stream ctr).2 := by
        rw [tryGen, hinv]
      rw [hred]
      exact tryGen_total ps stream fuel _
    | some fq =>
      refine Or.inl ⟨⟨⟨(sample_trinary ps.n ps.dF1 ps.dF2 stream ctr).1⟩,
        ⟨(3 : ℤ) • CycPoly.conv fq
          (toZq ps.q (sample_trinary ps.n ps.dg1 ps.dg2 stream
            (sample_trinary ps.n ps.dF1 ps.dF2 stream ctr).2).1)⟩⟩, ?_⟩
      rw [tryGen, hinv]

/-! ### Public-key derivation from an existing private key -/

theorem generate_public_ok (ps : Params) (sk : PrivateKey ps)
    (hinv : ∃ u, CycPoly.conv (toZq ps.q (fPoly sk)) u = 1)
    (hn : 0 < ps.n) (hq : 1 < ps.q) (rand : RandContext) :
    ∃ pk, generate_public ps sk rand = .ok pk := by
  haveI : NeZero ps.n := ⟨by omega⟩
  haveI : NeZero ps.q := ⟨by omega⟩
  obtain ⟨u, hu⟩ := invert_complete hinv
  refine ⟨⟨(3 : ℤ) • CycPoly.conv u
    (toZq ps.q (sample_trinary ps.n ps.dg1 ps.dg2 rand.stream 0).1)⟩, ?_⟩
  rw [generate_public, hu]

theorem generate_public_inj (ps : Params) (hWF : ps.WF) (sk : PrivateKey ps)
    (rand rand' : RandContext) (pk pk' : PublicKey ps)
    (hok : generate_public ps sk rand = .ok pk)
    (hok' : generate_public ps sk rand' = .ok pk')
    (hg : toZq ps.q (sample_trinary ps.n ps.dg1 ps.dg2 rand.stream 0).1 ≠
      toZq ps.q (sample_trinary ps.n ps.dg1 ps.dg2 rand'.stream 0).1) :
    pk ≠ pk' := by
  obtain ⟨hn, hbits, ⟨e0, hq⟩, hq4, hqle, hlay, hmax, hmargin⟩ := hWF
  haveI : NeZero ps.n := ⟨by omega⟩
  haveI : NeZero ps.q := ⟨by omega⟩
  cases hu : invert (toZq ps.q (fPoly sk)) with
  | none => rw [generate_public, hu] at hok; exact Except.noConfusion hok
  | some u =>
    rw [generate_public, hu] at hok hok'
    cases hok
    cases hok'
    intro heq
    apply hg
    have hh : (3 : ℤ) • CycPoly.conv u
        (toZq ps.q (sample_trinary ps.n ps.dg1 ps.dg2 rand.stream 0).1) =
        (3 : ℤ) • CycPoly.conv u
          (toZq ps.q (sample_trinary ps.n ps.dg1 ps.dg2 rand'.stream 0).1) :=
      congrArg PublicKey.h heq
    have hufu : CycPoly.conv (toZq ps.q (fPoly sk)) u = 1 := by
      rw [CycPoly.conv_comm]
      exact invert_sound hu
    have hmul := congrArg
      (fun x => CycPoly.conv (toZq ps.q (fPoly sk)) x) hh
    simp only [CycPoly.conv_smul] at hmul
    rw [← CycPoly.conv_assoc, ← CycPoly.conv_assoc, hufu,
      CycPoly.one_conv, CycPoly.one_conv] at hmul
    have hunit : IsUnit ((3 : ℕ) : ZMod ps.q) := by
      rw [ZMod.isUnit_iff_coprime]
      rw [hq]
      exact Nat.Coprime.pow_right e0 (by decide)
    refine CycPoly.ext fun k => ?_
    have hk := congrFun hmul k
    have hsm : ∀ x : CycPoly ps.n (ZMod ps.q),
        ((3 : ℤ) • x) k = ((3 : ℕ) : ZMod ps.q) * x k := by
      intro x
      rw [CycPoly.smul_apply, zsmul_eq_mul]
      push_cast
      ring
    rw [hsm, hsm] at hk
    exact hunit.mul_left_cancel hk

/-! ### The CLI glue layer, embedded from src/main.rs

File contents are byte lists; the file system is a map from abstract
paths to optional contents.  `read_to_string`, whitespace trimming,
base64 decoding, the size checks, and the write-back of results mirror
the source line by line. -/

namespace Cli

/-- Abstract file path (the source's `PathBuf`). -/
def Path : Type := ℕ

instance : DecidableEq Path := inferInstanceAs (DecidableEq ℕ)

/-- The file system state: contents (byte lists) per path. -/
def FS : Type := Path → Option (List ℕ)

/-- `std::fs::write`: replace one file's contents. -/
def writeFile (fs : FS) (p : Path) (content : List ℕ) : FS :=
  fun q => if q = p then some content else fs q

/-- `std::fs::read_to_string`: file bytes as characters. -/
def readToString (fs : FS) (p : Path) : Option (List Char) :=
  (fs p).map (fun bs => bs.map Char.ofNat)

/-- `str::trim`: strip leading and trailing whitespace. -/
def trim (s : List Char) : List Char :=
  ((s.dropWhile Char.isWhitespace).reverse.dropWhile Char.isWhitespace).reverse

/-- Value of one standard-alphabet base64 character. -/
def b64Val (c : Char) : Option ℕ :=
  if 'A' ≤ c ∧ c ≤ 'Z' then some (c.toNat - 'A'.toNat)
  else if 'a' ≤ c ∧ c ≤ 'z' then some (c.toNat - 'a'.toNat + 26)
  else if '0' ≤ c ∧ c ≤ '9' then some (c.toNat - '0'.toNat + 52)
  else if c = '+' then some 62
  else if c = '/' then some 63
  else none

/-- `base64::decode`: standard alphabet, four-character groups, `=`
padding allowed only in the final group. -/
def base64decode : List Char → Option (List ℕ)
  | [] => some []
  | [a, b, '=', '='] =>
    match b64Val a, b64Val b with
    | some va, some vb => some [va * 4 + vb / 16]
    | _, _ => none
  | [a, b, c, '='] =>
    match b64Val a, b64Val b, b64Val c with
    | some va, some vb, some vc =>
      some [va * 4 + vb / 16, vb % 16 * 16 + vc / 4]
    | _, _, _ => none
  | a :: b :: c :: d :: rest =>
    match b64Val a, b64Val b, b64Val c, b64Val d, base64decode rest with
    | some va, some vb, some vc, some vd, some bs =>
      some ([va * 4 + vb / 16, vb % 16 * 16 + vc / 4, vc % 4 * 64 + vd] ++ bs)
    | _, _, _, _, _ => none
  | _ => none

/-- Failure kinds of the CLI layer (the source's `expect`/`panic!`
messages, surfaced as typed results in the embedding). -/
inductive CliError where
  | CantReadKeyFile : CliError
  | InvalidKey : CliError
  | InvalidKeySize : CliError
  | CantReadFile : CliError
  | EncryptFailed : CliError
  | DecryptFailed : CliError
  deriving DecidableEq

/-- The base64/size-validation stage of `read_public_key`, applied to the
file's text. -/
def parse_public_key (ps : Params) (s : List Char) :
    Except CliError (PublicKey ps) :=
  match base64decode (trim s) with
  | none => .error .InvalidKey
  | some bytes =>
    if bytes.length ≠ ps.public_len then .error .InvalidKeySize
    else .ok (PublicKey.importKey ps bytes)

/-- The base64/size-validation stage of `read_private_key`. -/
def parse_private_key (ps : Params) (s : List Char) :
    Except CliError (PrivateKey ps) :=
  match base64decode (trim s) with
  | none => .error .InvalidKey
  | some bytes =>
    if bytes.length ≠ ps.private_len then .error .InvalidKeySize
    else .ok (PrivateKey.importKey ps bytes)

/-- `read_public_key` from src/main.rs: read the file, trim, base64
decode, validate the size, import. -/
def read_public_key (ps : Params) (fs : FS) (p : Path) :
    Except CliError (PublicKey ps) :=
  match readToString fs p with
  | none => .error .CantReadKeyFile
  | some s => parse_public_key ps s

/-- `read_private_key` from src/main.rs. -/
def read_private_key (ps : Params) (fs : FS) (p : Path) :
    Except CliError (PrivateKey ps) :=
  match readToString fs p with
  | none => .error .CantReadKeyFile
  | some s => parse_private_key ps s

instance (n : ℕ) : OfNat Path n := inferInstanceAs (OfNat ℕ n)

/-- The `Enc` command (`fn encrypt` in src/main.rs): read the public key
and the plaintext file, encrypt, and replace the file's contents with the
ciphertext. -/
def encrypt (ps : Params) (fs : FS) (file public_key : Path)
    (rand : RandContext) : Except CliError FS :=
  match read_public_key ps fs public_key with
  | .error e => .error e
  | .ok pub =>
    match fs file with
    | none => .error .CantReadFile
    | some plaintext =>
      match NTRU.encrypt plaintext pub rand with
      | .error _ => .error .EncryptFailed
      | .ok ciphertext => .ok (writeFile fs file ciphertext)

/-- The `Dec` command (`fn decrypt` in src/main.rs): read both keys,
build the `KeyPair` directly from them, decrypt, and replace the file's
contents with the plaintext. -/
def decrypt (ps : Params) (fs : FS) (file private_key public_key : Path) :
    Except CliError FS :=
  match read_private_key ps fs private_key with
  | .error e => .error e
  | .ok sk =>
    match read_public_key ps fs public_key with
    | .error e => .error e
    | .ok pub =>
      match fs file with
      | none => .error .CantReadFile
      | some ciphertext =>
        match NTRU.decrypt ciphertext (⟨sk, pub⟩ : KeyPair ps) with
        | .error _ => .error .DecryptFailed
        | .ok plaintext => .ok (writeFile fs file plaintext)

/-- The lines printed by the `Info` command, as a record. -/
structure InfoReport where
  param_set_name : String
  backend : String
  public_key_length : ℕ
  private_key_length : ℕ
  ciphertext_length : ℕ
  max_plaintext_length : ℕ
  random_left_bit_padding : ℕ
  polynomial_coefficients : ℕ
  smaller_modulus : ℕ
  larger_modulus : ℕ
  deriving DecidableEq

/-- `print_general_information` from src/main.rs: the reported values,
with the small modulus printed as the constant 3. -/
def print_general_information (ps : Params) : InfoReport :=
  ⟨ps.get_name, "libntru (https://github.com/tbuktu/libntru)",
    ps.public_len, ps.private_len, ps.enc_len, ps.max_msg_len,
    ps.get_db, ps.get_n, 3, ps.get_q⟩

end Cli

/-! ### Trim lemmas for whitespace-tolerant key import -/

theorem dropWhile_append_all {α : Type} (p : α → Bool) :
    ∀ (l1 l2 : List α), (∀ a ∈ l1, p a = true) →
      (l1 ++ l2).dropWhile p = l2.dropWhile p
  | [], _, _ => rfl
  | a :: l1, l2, h => by
    rw [List.cons_append, List.dropWhile_cons,
      if_pos (h a (List.mem_cons_self a l1)),
      dropWhile_append_all p l1 l2 (fun x hx => h x (List.mem_cons_of_mem a hx))]

theorem dropWhile_all {α : Type} (p : α → Bool) (l : List α)
    (h : ∀ a ∈ l, p a = true) : l.dropWhile p = [] := by
  have h2 := dropWhile_append_all p l [] h
  rw [List.append_nil] at h2
  rw [h2]
  rfl

theorem dropWhile_of_all_neg {α : Type} (p : α → Bool) :
    ∀ (l : List α), (∀ a ∈ l, p a = false) → l.dropWhile p = l
  | [], _ => rfl
  | a :: l, h => by
    rw [List.dropWhile_cons, if_neg (by
      rw [h a (List.mem_cons_self a l)]
      exact Bool.false_ne_true)]

theorem trim_sandwich (ws1 s ws2 : List Char)
    (h1 : ∀ c ∈ ws1, c.isWhitespace = true)
    (h2 : ∀ c ∈ ws2, c.isWhitespace = true)
    (hs : ∀ c ∈ s, c.isWhitespace = false) :
    Cli.trim (ws1 ++ s ++ ws2) = s := by
  rw [Cli.trim, List.append_assoc, dropWhile_append_all _ _ _ h1]
  cases s with
  | nil =>
    rw [List.nil_append, dropWhile_all _ _ h2]
    rfl
  | cons a s' =>
    rw [List.cons_append, List.dropWhile_cons, if_neg (by
      rw [hs a (List.mem_cons_self a s')]
      exact Bool.false_ne_true)]
    rw [← List.cons_append, List.reverse_append,
      dropWhile_append_all _ _ _ (fun c hc =>
        h2 c (List.mem_reverse.mp hc)),
      dropWhile_of_all_neg _ _ (fun c hc =>
        hs c (List.mem_reverse.mp hc)),
      List.reverse_reverse]

theorem trim_of_noWhitespace (s : List Char)
    (hs : ∀ c ∈ s, c.isWhitespace = false) : Cli.trim s = s := by
  have h := trim_sandwich [] s [] (by intro c hc; cases hc)
    (by intro c hc; cases hc) hs
  rw [List.append_nil, List.nil_append] at h
  exact h

/-! ### Error taxonomy helpers -/

theorem parseMsg_total (ps : Params) (trits : List ℕ) :
    (∃ pt, parseMsg ps trits = .ok pt) ∨
      parseMsg ps trits = .error .IntegrityCheckFailed ∨
      parseMsg ps trits = .error .DecodingError := by
  rw [parseMsg]
  by_cases h1 : ps.max_msg_len < ofDigits 3 (trits.take 6)
  · right; right; rw [if_pos h1]
  · rw [if_neg h1]
    by_cases h2 :
        (trits.drop (6 + 6 * ofDigits 3 (trits.take 6))).take 3 ≠ marker
    · right; left; rw [if_pos h2]
    · left
      refine ⟨(List.range (ofDigits 3 (trits.take 6))).map fun i =>
        ofDigits 3 ((trits.drop (6 + 6 * i)).take 6), ?_⟩
      rw [if_neg h2]

/-! ### Witness fixtures: small well-formed parameter sets and keys -/

/-- A small test parameter set used to instantiate the theorems on
concrete data. -/
def ps0 : Params := ⟨"TEST", 16, 32, 5, 1, 1, 1, 1, 1, 1, 1, 1⟩

/-- A variant of `ps0` whose private component has weight zero, so key
generation succeeds on the first candidate `f = 1`. -/
def ps1 : Params := ⟨"TEST0", 16, 32, 5, 0, 0, 1, 1, 1, 1, 1, 1⟩

/-- The built-in default parameter set satisfies the registry invariant,
so the round-trip and derivation theorems apply to it. -/
theorem default_params_WF : DEFAULT_PARAMS_256_BITS.WF :=
  ⟨by decide, by decide, ⟨11, by decide⟩, by decide, by decide, by decide,
    by decide, by decide⟩

theorem ps0_WF : ps0.WF :=
  ⟨by decide, by decide, ⟨5, by decide⟩, by decide, by decide, by decide,
    by decide, by decide⟩

theorem ps1_WF : ps1.WF :=
  ⟨by decide, by decide, ⟨5, by decide⟩, by decide, by decide, by decide,
    by decide, by decide⟩

/-- A constant random stream. -/
def rand0 : RandContext := ⟨fun _ => 0⟩

/-- Another constant random stream, drawing different positions. -/
def rand1 : RandContext := ⟨fun _ => 1⟩

/-- Test private key with `F = 0`, so `f = 1`. -/
def sk0 : PrivateKey ps0 := ⟨0⟩

/-- Test sampled polynomial `g` for the public key of `sk0`. -/
def g0 : CycPoly ps0.n ℤ := fun k => if (k : ℕ) = 0 then 1 else 0

/-- Test public key derived from `sk0` and `g0` with `fq = 1`. -/
def pub0 : PublicKey ps0 := ⟨(3 : ℤ) • CycPoly.conv 1 (toZq ps0.q g0)⟩

/-- Test key pair. -/
def kp0 : KeyPair ps0 := ⟨sk0, pub0⟩

/-- Test message. -/
def msg0 : List ℕ := [65]

/-- Ciphertext obtained by encrypting `msg0` under `kp0` with the
constant stream. -/
def ct0 : List ℕ :=
  match NTRU.encrypt msg0 kp0.pub rand0 with
  | .ok ct => ct
  | .error _ => []

theorem kp0_valid : ValidKeyPair ps0 kp0 :=
  ⟨by decide, by decide, 1, g0, by decide, by decide, rfl⟩

/-! ### The claims -/

/-- Claim C1: for every well-formed parameter set and every plaintext
byte sequence of length at most `max_msg_len`, decrypting (with the
matching key pair and the same parameter set) the ciphertext produced by
a successful encryption returns exactly the plaintext, for every value of
the encryption randomness — no false rejections. -/
theorem claim_C1 (ps : Params) (hWF : ps.WF) (kp : KeyPair ps)
    (hkp : ValidKeyPair ps kp) (msg : List ℕ)
    (hlen : msg.length ≤ ps.max_msg_len) (hbytes : ∀ b ∈ msg, b < 256)
    (rand : RandContext) (ct : List ℕ)
    (henc : NTRU.encrypt msg kp.pub rand = .ok ct) :
    NTRU.decrypt ct kp = .ok msg :=
  encrypt_decrypt_roundtrip ps hWF kp hkp msg hlen hbytes rand ct henc

/-- Witness for C1 at the small test parameter set. -/
theorem claim_C1_witness : NTRU.decrypt ct0 kp0 = .ok msg0 :=
  claim_C1 ps0 ps0_WF kp0 kp0_valid msg0 (by decide) (by decide)
    rand0 ct0 rfl

/-- Claim C3: for every plaintext strictly longer than
`params.max_msg_len()`, `encrypt` returns `EncryptError::MessageTooLong`
and produces no ciphertext. -/
theorem claim_C3 (ps : Params) (msg : List ℕ) (pub : PublicKey ps)
    (rand : RandContext) (hlong : ps.max_msg_len < msg.length) :
    NTRU.encrypt msg pub rand = .error .MessageTooLong := by
  rw [NTRU.encrypt, if_pos hlong]

/-- Witness for C3: a two-byte message exceeds `ps0`'s one-byte limit. -/
theorem claim_C3_witness :
    NTRU.encrypt [1, 2] pub0 rand0 = .error .MessageTooLong :=
  claim_C3 ps0 [1, 2] pub0 rand0 (by decide)

/-- Claim C5: decryption trusts the caller-supplied private/public
pairing without cryptographic verification — its result depends only on
the private half, so any public key paired with the same private key
yields the identical outcome. -/
theorem claim_C5 (ps : Params) (ct : List ℕ) (kp kp' : KeyPair ps)
    (hpriv : kp.priv = kp'.priv) :
    NTRU.decrypt ct kp = NTRU.decrypt ct kp' := by
  rcases kp with ⟨sk, pub⟩
  rcases kp' with ⟨sk', pub'⟩
  cases hpriv
  rfl

/-- Witness for C5: the same private key with two different public keys. -/
theorem claim_C5_witness :
    NTRU.decrypt ct0 (⟨sk0, pub0⟩ : KeyPair ps0) =
      NTRU.decrypt ct0 (⟨sk0, ⟨0⟩⟩ : KeyPair ps0) :=
  claim_C5 ps0 ct0 ⟨sk0, pub0⟩ ⟨sk0, ⟨0⟩⟩ rfl

/-- Claim C8: the info operation reports exactly the parameter metadata:
name, public/private/ciphertext lengths, maximum plaintext length,
padding bit count, ring degree N, small modulus p equal to 3, and large
modulus q. -/
theorem claim_C8 (ps : Params) :
    (Cli.print_general_information ps).param_set_name = ps.get_name ∧
    (Cli.print_general_information ps).public_key_length = ps.public_len ∧
    (Cli.print_general_information ps).private_key_length = ps.private_len ∧
    (Cli.print_general_information ps).ciphertext_length = ps.enc_len ∧
    (Cli.print_general_information ps).max_plaintext_length = ps.max_msg_len ∧
    (Cli.print_general_information ps).random_left_bit_padding = ps.get_db ∧
    (Cli.print_general_information ps).polynomial_coefficients = ps.get_n ∧
    (Cli.print_general_information ps).smaller_modulus = 3 ∧
    (Cli.print_general_information ps).larger_modulus = ps.get_q :=
  ⟨rfl, rfl, rfl, rfl, rfl, rfl, rfl, rfl, rfl⟩

/-- Claim C4: every engine operation — RNG initialization, key
generation, public-key derivation, encryption, decryption — returns a
result value distinguishing success from a specific failure kind; no
engine failure is an unrecoverable abort inside the engine. -/
theorem claim_C4 :
    (∀ src : EntropySource,
      (∃ c, rand_init src = .ok c) ∨
        rand_init src = .error .RngUnavailable) ∧
    (∀ (ps : Params) (rand : RandContext),
      (∃ kp, generate_key_pair ps rand = .ok kp) ∨
        generate_key_pair ps rand = .error .NoInvertibleCandidate) ∧
    (∀ (ps : Params) (sk : PrivateKey ps) (rand : RandContext),
      (∃ pk, generate_public ps sk rand = .ok pk) ∨
        generate_public ps sk rand = .error .NoInvertibleCandidate) ∧
    (∀ (ps : Params) (msg : List ℕ) (pub : PublicKey ps) (rand : RandContext),
      (∃ ct, NTRU.encrypt msg pub rand = .ok ct) ∨
        NTRU.encrypt msg pub rand = .error .MessageTooLong) ∧
    (∀ (ps : Params) (ct : List ℕ) (kp : KeyPair ps),
      (∃ pt, NTRU.decrypt ct kp = .ok pt) ∨
        NTRU.decrypt ct kp = .error .IntegrityCheckFailed ∨
        NTRU.decrypt ct kp = .error .DecodingError) := by
  refine ⟨?_, ?_, ?_, ?_, ?_⟩
  · intro src
    rcases src with _ | s
    · exact Or.inr rfl
    · exact Or.inl ⟨⟨s⟩, rfl⟩
  · intro ps rand
    exact tryGen_total ps rand.stream 1000 0
  · intro ps sk rand
    cases hu : invert (toZq ps.q (fPoly sk)) with
    | none =>
      right
      rw [generate_public, hu]
    | some u =>
      left
      refine ⟨⟨(3 : ℤ) • CycPoly.conv u
        (toZq ps.q (sample_trinary ps.n ps.dg1 ps.dg2 rand.stream 0).1)⟩, ?_⟩
      rw [generate_public, hu]
  · intro ps msg pub rand
    by_cases h : ps.max_msg_len < msg.length
    · right
      rw [NTRU.encrypt, if_pos h]
    · left
      refine ⟨exportCipher ps (cipherPoly pub
        (sample_trinary ps.n ps.dr1 ps.dr2 rand.stream 0).1
        (polyOfTrits ps.n (encodeMsg msg
          (padTrits ps.db rand.stream
            (sample_trinary ps.n ps.dr1 ps.dr2 rand.stream 0).2)))), ?_⟩
      rw [NTRU.encrypt, if_neg h]
  · intro ps ct kp
    by_cases h1 : ct.length ≠ ps.enc_len
    · right; right
      rw [NTRU.decrypt, if_pos h1]
    · rw [NTRU.decrypt, if_neg h1]
      exact parseMsg_total ps _

/-- Claim C6: deriving a public key from an existing (generated, hence
invertible) private key succeeds for every random stream, and two
derivations whose freshly sampled blinding polynomials differ produce
different — equally valid — public keys. -/
theorem claim_C6 (ps : Params) (hWF : ps.WF) (sk : PrivateKey ps)
    (hinv : ∃ u, CycPoly.conv (toZq ps.q (fPoly sk)) u = 1) :
    (∀ rand, ∃ pk, generate_public ps sk rand = .ok pk) ∧
    (∀ (rand rand' : RandContext) (pk pk' : PublicKey ps),
      generate_public ps sk rand = .ok pk →
      generate_public ps sk rand' = .ok pk' →
      toZq ps.q (sample_trinary ps.n ps.dg1 ps.dg2 rand.stream 0).1 ≠
        toZq ps.q (sample_trinary ps.n ps.dg1 ps.dg2 rand'.stream 0).1 →
      pk ≠ pk') := by
  obtain ⟨hn, hbits, ⟨e0, hq⟩, hq4, hqle, hlay, hmax, hmargin⟩ := hWF
  refine ⟨fun rand =>
    generate_public_ok ps sk hinv hn (by omega) rand,
    fun rand rand' pk pk' h1 h2 h3 =>
      generate_public_inj ps
        ⟨hn, hbits, ⟨e0, hq⟩, hq4, hqle, hlay, hmax, hmargin⟩
        sk rand rand' pk pk' h1 h2 h3⟩

/-- First test derivation for C6. -/
def pkA : PublicKey ps0 :=
  match generate_public ps0 sk0 rand0 with
  | .ok pk => pk
  | .error _ => ⟨0⟩

/-- Second test derivation for C6, from a different stream. -/
def pkB : PublicKey ps0 :=
  match generate_public ps0 sk0 rand1 with
  | .ok pk => pk
  | .error _ => ⟨0⟩

/-- Witness for C6: the two concrete derivations differ. -/
theorem claim_C6_witness : pkA ≠ pkB :=
  (claim_C6 ps0 ps0_WF sk0 ⟨1, by decide⟩).2 rand0 rand1 pkA pkB
    rfl rfl (by decide)

/-- Claim C7: importing the exported encoding of a generated key pair's
public key yields the public key bit-for-bit, and likewise for the
private key. -/
theorem claim_C7 (ps : Params) (hWF : ps.WF) (rand : RandContext)
    (kp : KeyPair ps) (hgen : generate_key_pair ps rand = .ok kp) :
    PublicKey.importKey ps kp.pub.exportKey = kp.pub ∧
    PrivateKey.importKey ps kp.priv.exportKey = kp.priv := by
  have hv := generate_key_pair_valid ps hWF.1 rand kp hgen
  exact ⟨publicKey_roundtrip hWF kp.pub,
    privateKey_roundtrip hWF kp.priv hv.1⟩

/-- A concrete generated key pair for the C7 witness. -/
def kpGen : KeyPair ps1 :=
  match generate_key_pair ps1 rand0 with
  | .ok kp => kp
  | .error _ => ⟨⟨0⟩, ⟨0⟩⟩

/-- Witness for C7 on a concretely generated key pair. -/
theorem claim_C7_witness :
    PublicKey.importKey ps1 kpGen.pub.exportKey = kpGen.pub ∧
    PrivateKey.importKey ps1 kpGen.priv.exportKey = kpGen.priv :=
  claim_C7 ps1 ps1_WF rand0 kpGen rfl

/-- Claim C2: whenever the decoded key buffer's length differs from the
default parameter set's expected public-key (respectively private-key)
length, the import path fails with the sizing error before any parse;
`PublicKey::import` (respectively `PrivateKey::import`) is reached only
when the length matches exactly. -/
theorem claim_C2 (fs : Cli.FS) (p : Cli.Path) (s : List Char)
    (bytes : List ℕ) (hread : Cli.readToString fs p = some s)
    (hdec : Cli.base64decode (Cli.trim s) = some bytes) :
    (bytes.length ≠ DEFAULT_PARAMS_256_BITS.public_len →
      Cli.read_public_key DEFAULT_PARAMS_256_BITS fs p =
        .error .InvalidKeySize) ∧
    (bytes.length = DEFAULT_PARAMS_256_BITS.public_len →
      Cli.read_public_key DEFAULT_PARAMS_256_BITS fs p =
        .ok (PublicKey.importKey DEFAULT_PARAMS_256_BITS bytes)) ∧
    (bytes.length ≠ DEFAULT_PARAMS_256_BITS.private_len →
      Cli.read_private_key DEFAULT_PARAMS_256_BITS fs p =
        .error .InvalidKeySize) ∧
    (bytes.length = DEFAULT_PARAMS_256_BITS.private_len →
      Cli.read_private_key DEFAULT_PARAMS_256_BITS fs p =
        .ok (PrivateKey.importKey DEFAULT_PARAMS_256_BITS bytes)) := by
  have hpub : Cli.read_public_key DEFAULT_PARAMS_256_BITS fs p =
      Cli.parse_public_key DEFAULT_PARAMS_256_BITS s := by
    rw [Cli.read_public_key, hread]
  have hpriv : Cli.read_private_key DEFAULT_PARAMS_256_BITS fs p =
      Cli.parse_private_key DEFAULT_PARAMS_256_BITS s := by
    rw [Cli.read_private_key, hread]
  refine ⟨fun hne => ?_, fun heq => ?_, fun hne => ?_, fun heq => ?_⟩
  · rw [hpub, Cli.parse_public_key, hdec]
    show (if bytes.length ≠ DEFAULT_PARAMS_256_BITS.public_len
        then Except.error Cli.CliError.InvalidKeySize
        else Except.ok (PublicKey.importKey DEFAULT_PARAMS_256_BITS bytes)) = _
    rw [if_pos hne]
  · rw [hpub, Cli.parse_public_key, hdec]
    show (if bytes.length ≠ DEFAULT_PARAMS_256_BITS.public_len
        then Except.error Cli.CliError.InvalidKeySize
        else Except.ok (PublicKey.importKey DEFAULT_PARAMS_256_BITS bytes)) = _
    rw [if_neg (fun hc => hc heq)]
  · rw [hpriv, Cli.parse_private_key, hdec]
    show (if bytes.length ≠ DEFAULT_PARAMS_256_BITS.private_len
        then Except.error Cli.CliError.InvalidKeySize
        else Except.ok (PrivateKey.importKey DEFAULT_PARAMS_256_BITS bytes)) = _
    rw [if_pos hne]
  · rw [hpriv, Cli.parse_private_key, hdec]
    show (if bytes.length ≠ DEFAULT_PARAMS_256_BITS.private_len
        then Except.error Cli.CliError.InvalidKeySize
        else Except.ok (PrivateKey.importKey DEFAULT_PARAMS_256_BITS bytes)) = _
    rw [if_neg (fun hc => hc heq)]

/-- A file whose content is the base64 text `AAAA`, decoding to three
bytes — the wrong size for either key of the default parameter set. -/
def fsC2 : Cli.FS := fun p => if p = 0 then some [65, 65, 65, 65] else none

/-- Witness for C2: the three-byte buffer is rejected with the sizing
error on both import paths. -/
theorem claim_C2_witness :
    Cli.read_public_key DEFAULT_PARAMS_256_BITS fsC2 0 =
      .error .InvalidKeySize ∧
    Cli.read_private_key DEFAULT_PARAMS_256_BITS fsC2 0 =
      .error .InvalidKeySize :=
  ⟨(claim_C2 fsC2 0 ['A', 'A', 'A', 'A'] [0, 0, 0] rfl rfl).1 (by decide),
   (claim_C2 fsC2 0 ['A', 'A', 'A', 'A'] [0, 0, 0] rfl rfl).2.2.1 (by decide)⟩

/-- Claim C9: a successful `Enc` or `Dec` invocation writes its output
(ciphertext or recovered plaintext) back to the same file path that held
the input, replacing its contents, and leaves every other path of the
file system untouched. -/
theorem claim_C9 :
    (∀ (ps : Params) (fs : Cli.FS) (file pk : Cli.Path)
      (rand : RandContext) (fs' : Cli.FS),
      Cli.encrypt ps fs file pk rand = .ok fs' →
      (∃ pt pub ct, Cli.read_public_key ps fs pk = .ok pub ∧
        fs file = some pt ∧ NTRU.encrypt pt pub rand = .ok ct ∧
        fs' file = some ct) ∧
      ∀ p, p ≠ file → fs' p = fs p) ∧
    (∀ (ps : Params) (fs : Cli.FS) (file sk pk : Cli.Path) (fs' : Cli.FS),
      Cli.decrypt ps fs file sk pk = .ok fs' →
      (∃ ctext skk pub pt, Cli.read_private_key ps fs sk = .ok skk ∧
        Cli.read_public_key ps fs pk = .ok pub ∧ fs file = some ctext ∧
        NTRU.decrypt ctext (⟨skk, pub⟩ : KeyPair ps) = .ok pt ∧
        fs' file = some pt) ∧
      ∀ p, p ≠ file → fs' p = fs p) := by
  constructor
  · intro ps fs file pk rand fs' h
    rw [Cli.encrypt] at h
    split at h
    · exact Except.noConfusion h
    · split at h
      · exact Except.noConfusion h
      · split at h
        · exact Except.noConfusion h
        · rename_i x1 pub hpub x2 pt hfile x3 ct henc
          injection h with h2
          subst h2
          refine ⟨⟨pt, pub, ct, hpub, hfile, henc, ?_⟩, fun p hp => ?_⟩
          · simp [Cli.writeFile]
          · simp [Cli.writeFile, hp]
  · intro ps fs file sk pk fs' h
    rw [Cli.decrypt] at h
    split at h
    · exact Except.noConfusion h
    · split at h
      · exact Except.noConfusion h
      · split at h
        · exact Except.noConfusion h
        · split at h
          · exact Except.noConfusion h
          · rename_i x1 skk hsk x2 pub hpub x3 ctext hfile x4 pt hdec
            injection h with h2
            subst h2
            refine ⟨⟨ctext, skk, pub, pt, hsk, hpub, hfile, hdec, ?_⟩,
              fun p hp => ?_⟩
            · simp [Cli.writeFile]
            · simp [Cli.writeFile, hp]

/-- Base64 text (as file bytes) of a ten-zero-byte public key for `ps0`. -/
def pubKeyFile : List ℕ := List.replicate 12 65 ++ [65, 65, 61, 61]

/-- Base64 text (as file bytes) of a four-zero-byte private key for
`ps0`. -/
def privKeyFile : List ℕ := [65, 65, 65, 65, 65, 65, 61, 61]

/-- File system for the C9 encryption scenario: plaintext at path 0,
public key at path 1. -/
def fsE : Cli.FS := fun p =>
  if p = 0 then some [65] else if p = 1 then some pubKeyFile else none

/-- Ciphertext the `Enc` command computes in the C9 scenario. -/
def ctE : List ℕ :=
  match NTRU.encrypt [65]
      (PublicKey.importKey ps0 [0, 0, 0, 0, 0, 0, 0, 0, 0, 0]) rand0 with
  | .ok ct => ct
  | .error _ => []

/-- Expected file system after the C9 encryption scenario. -/
def fsE' : Cli.FS := Cli.writeFile fsE 0 ctE

/-- File system for the C9 decryption scenario: ciphertext at path 0,
public key at path 1, private key at path 3. -/
def fsD : Cli.FS := fun p =>
  if p = 0 then some ctE else if p = 1 then some pubKeyFile
  else if p = 3 then some privKeyFile else none

/-- Expected file system after the C9 decryption scenario. -/
def fsD' : Cli.FS := Cli.writeFile fsD 0 [65]

/-- Witness for C9: both commands succeed on the concrete file systems
and leave the unrelated path 2 untouched. -/
theorem claim_C9_witness :
    (Cli.encrypt ps0 fsE 0 1 rand0 = .ok fsE' ∧ fsE' 2 = fsE 2) ∧
    (Cli.decrypt ps0 fsD 0 3 1 = .ok fsD' ∧ fsD' 2 = fsD 2) :=
  ⟨⟨rfl, (claim_C9.1 ps0 fsE 0 1 rand0 fsE' rfl).2 2 (by decide)⟩,
   ⟨rfl, (claim_C9.2 ps0 fsD 0 3 1 fsD' rfl).2 2 (by decide)⟩⟩

/-- Claim C10: a key file whose content is a base64 string surrounded by
any leading or trailing whitespace imports identically to the bare
base64 string — the text is trimmed before base64 decoding. -/
theorem claim_C10 (ps : Params) (fs fs2 : Cli.FS) (p p2 : Cli.Path)
    (ws1 s ws2 : List Char)
    (hc : Cli.readToString fs p = some (ws1 ++ s ++ ws2))
    (hc2 : Cli.readToString fs2 p2 = some s)
    (h1 : ∀ ch ∈ ws1, ch.isWhitespace = true)
    (h2 : ∀ ch ∈ ws2, ch.isWhitespace = true)
    (hs : ∀ ch ∈ s, ch.isWhitespace = false) :
    Cli.read_public_key ps fs p = Cli.read_public_key ps fs2 p2 ∧
    Cli.read_private_key ps fs p = Cli.read_private_key ps fs2 p2 := by
  have htrim : Cli.trim (ws1 ++ s ++ ws2) = Cli.trim s := by
    rw [trim_sandwich ws1 s ws2 h1 h2 hs, trim_of_noWhitespace s hs]
  constructor
  · have e1 : Cli.read_public_key ps fs p =
        Cli.parse_public_key ps (ws1 ++ s ++ ws2) := by
      rw [Cli.read_public_key, hc]
    have e2 : Cli.read_public_key ps fs2 p2 =
        Cli.parse_public_key ps s := by
      rw [Cli.read_public_key, hc2]
    rw [e1, e2, Cli.parse_public_key, Cli.parse_public_key, htrim]
  · have e1 : Cli.read_private_key ps fs p =
        Cli.parse_private_key ps (ws1 ++ s ++ ws2) := by
      rw [Cli.read_private_key, hc]
    have e2 : Cli.read_private_key ps fs2 p2 =
        Cli.parse_private_key ps s := by
      rw [Cli.read_private_key, hc2]
    rw [e1, e2, Cli.parse_private_key, Cli.parse_private_key, htrim]

/-- File system for the C10 witness: path 0 holds the base64 text
wrapped in a space and a newline, path 1 the bare text. -/
def fsW : Cli.FS := fun p =>
  if p = 0 then some [32, 65, 65, 65, 65, 10]
  else if p = 1 then some [65, 65, 65, 65] else none

/-- Witness for C10: the whitespace-padded and the bare key files import
identically. -/
theorem claim_C10_witness :
    Cli.read_public_key ps0 fsW 0 = Cli.read_public_key ps0 fsW 1 ∧
    Cli.read_private_key ps0 fsW 0 = Cli.read_private_key ps0 fsW 1 :=
  claim_C10 ps0 fsW fsW 0 1 [' '] ['A', 'A', 'A', 'A'] ['\n']
    rfl rfl (by decide) (by decide) (by decide)

end NTRU
